import Mathlib

/-!
# A-Texts trajectory-matching engine: a shallow embedding in Lean 4

This file embeds the core of the A-Texts repository (deterministic text
embedding, the HNSW graph index, the IVF cluster index, the multi-field
inverted filter, Platt scaling, split-conformal intervals, and the
orchestrating `TrajectoryMatcher`) as executable Lean definitions, and
proves or refutes the specification claims about them.

Modelling conventions:
* JavaScript numbers are modelled as `ℚ`.  `Math.sqrt` is modelled by
  `ratSqrt` (it computes `Rat.sqrt`, exact on perfect rational squares,
  which covers every evaluation the settled claims perform) and
  `Math.exp` by `expQ` (a positive rational approximation, exact at 0).
  No settled claim depends on the value of either function outside those
  exact regions.
* 32-bit integer operations (`Math.imul`, `^`, `>>>`) act on bit
  patterns; they are modelled on `ℕ` with explicit `% 2^32`.
* JavaScript `Map`s are association lists that preserve insertion order;
  `Map.set` replaces the value of an existing key in place.
* Code that can throw returns `Except String _` (or `Option _` where the
  only failure is a crash such as an out-of-bounds access); randomness
  (`Math.random` in HNSW level selection and k-means++ seeding) is passed
  in explicitly.
-/

attribute [local semireducible] Rat.inv Rat.mul Rat.add Rat.sub Rat.ofScientific

namespace ATexts

/-! ## Rational models of `Math.sqrt` and `Math.exp` -/

/-- Fuel-based version of `Nat.sqrt.iter` (Newton iteration), structurally
recursive so that concrete runs reduce inside the kernel. -/
def natSqrtIter (n : ℕ) : ℕ → ℕ → ℕ
  | 0, guess => guess
  | fuel + 1, guess =>
    let next := (guess + n / guess) / 2
    if next < guess then natSqrtIter n fuel next else guess

/-- Integer square root (computes the same values as `Nat.sqrt`, see
`natSqrt_eq`). -/
def natSqrt (n : ℕ) : ℕ :=
  if n ≤ 1 then n else natSqrtIter n n (n / 2)

/-- Integer square root on `ℤ` (agrees with `Int.sqrt`). -/
def intSqrt (m : ℤ) : ℤ := natSqrt m.toNat

/-- Rational model of `Math.sqrt`: computes `Rat.sqrt`, which is exact
whenever the argument is the square of a rational — and that covers every
evaluation the settled claims perform.  (Written with the fuel-based
`natSqrt` so that concrete runs reduce inside the kernel.) -/
def ratSqrt (q : ℚ) : ℚ := mkRat (intSqrt q.num) (natSqrt q.den)

/-- Polynomial part of the rational model of `Math.exp`. -/
def expPos (x : ℚ) : ℚ :=
  1 + x + x ^ 2 / 2 + x ^ 3 / 6 + x ^ 4 / 24

/-- Rational model of `Math.exp`: positive, exact at `0`.  No settled
claim depends on its value away from `0` beyond positivity. -/
def expQ (x : ℚ) : ℚ :=
  if x < 0 then 1 / expPos (-x) else expPos x

/-! ## `Map` model: association lists with JS `Map` semantics -/

/-- `Map.set`: replace the value of an existing key in place (keeping its
position), otherwise append the new binding. -/
def mapSet {κ ν : Type} [DecidableEq κ] (l : List (κ × ν)) (k : κ) (v : ν) :
    List (κ × ν) :=
  match l with
  | [] => [(k, v)]
  | (k', v') :: rest =>
    if k' = k then (k, v) :: rest else (k', v') :: mapSet rest k v

/-- `Map.get`: first binding of the key, if any. -/
def mapGet {κ ν : Type} [DecidableEq κ] (l : List (κ × ν)) (k : κ) :
    Option ν :=
  match l with
  | [] => none
  | (k', v) :: rest => if k' = k then some v else mapGet rest k

/-- Keys of the map, in insertion order (`Map.keys()`). -/
def mapKeys {κ ν : Type} (l : List (κ × ν)) : List κ :=
  l.map Prod.fst

/-! ## Stable sort (model of JavaScript `Array.prototype.sort`) -/

/-- Insert into a sorted list keeping ties in original order. -/
def insertSortedBy {α : Type} (le : α → α → Bool) (a : α) :
    List α → List α
  | [] => [a]
  | b :: l => if le a b then a :: b :: l else b :: insertSortedBy le a l

/-- Stable ascending sort by a boolean comparison, modelling the stable
`Array.prototype.sort` with a numeric comparator. -/
def sortBy {α : Type} (le : α → α → Bool) : List α → List α
  | [] => []
  | a :: l => insertSortedBy le a (sortBy le l)

/-! ## `embedding.ts`: deterministic hashing embedding -/

/-- `Math.imul`: 32-bit multiplication on bit patterns. -/
def imul32 (a b : ℕ) : ℕ := (a * b) % 4294967296

/-- `simpleHash(str, seed)` from `embedding.ts`.  `h1`/`h2` hold 32-bit
patterns (JS stores them as signed int32; only the patterns matter here,
since the final line reads them through `&` and `>>> 0`), and the return
value is the exact nonnegative JS number
`4294967296 * (2097151 & h2) + (h1 >>> 0)`.  `charCodeAt` is modelled by
`Char.toNat` (identical on the Basic Multilingual Plane). -/
def simpleHash (str : String) (seed : ℕ) : ℕ :=
  let h1 := Nat.xor 0xdeadbeef seed
  let h2 := Nat.xor 0x41c6ce57 seed
  let p := str.data.foldl
    (fun (p : ℕ × ℕ) ch =>
      (imul32 (Nat.xor p.1 ch.toNat) 2654435761,
       imul32 (Nat.xor p.2 ch.toNat) 1597334677))
    (h1, h2)
  let h1a := Nat.xor (imul32 (Nat.xor p.1 (p.1 / 2 ^ 16)) 2246822507)
    (imul32 (Nat.xor p.2 (p.2 / 2 ^ 13)) 3266489909)
  let h2a := Nat.xor (imul32 (Nat.xor p.2 (p.2 / 2 ^ 16)) 2246822507)
    (imul32 (Nat.xor h1a (h1a / 2 ^ 13)) 3266489909)
  4294967296 * Nat.land 2097151 h2a + h1a

/-- ASCII lower-casing (the tokens the engine sees are ASCII; JS
`toLowerCase` agrees with this on them). -/
def jsToLower (c : Char) : Char :=
  if 'A' ≤ c ∧ c ≤ 'Z' then Char.ofNat (c.toNat + 32) else c

/-- The regex class `\w` of `tokenize` (`[A-Za-z0-9_]`). -/
def isWordChar (c : Char) : Bool :=
  ('a' ≤ c && c ≤ 'z') || ('A' ≤ c && c ≤ 'Z') ||
    ('0' ≤ c && c ≤ '9') || c = '_'

/-- `tokenize` from `embedding.ts`: lower-case, replace non-word
characters by spaces, split on whitespace, keep tokens of length `> 2`.
(The JS split on `/\s+/` can yield empty strings; those have length 0 and
are removed by the same length filter, so splitting on single spaces and
filtering is behaviourally identical.) -/
def tokenize (text : String) : List String :=
  let cleaned := text.data.map fun c =>
    let lc := jsToLower c
    if isWordChar lc then lc else ' '
  ((cleaned.splitOn ' ').map fun cs => String.mk cs).filter
    fun t => t.length > 2

/-- First-occurrence order of the distinct tokens: the iteration order of
the JS `termFreq` map. -/
def uniqueFirst (l : List String) : List String :=
  l.foldl (fun acc t => if t ∈ acc then acc else acc ++ [t]) []

/-- `embed(input, dimensions)` from `embedding.ts` (the text case; the
object case first serialises, see `embedInput`).  Feature hashing with
three hash functions and signed features, then L2 normalisation. -/
def embed (text : String) (dims : ℕ) : List ℚ :=
  let tokens := tokenize text
  let start : List ℚ := List.replicate dims 0
  let vec := (uniqueFirst tokens).foldl
    (fun (v : List ℚ) t =>
      let tf : ℚ := (tokens.count t : ℚ) / (tokens.length : ℚ)
      (List.range 3).foldl
        (fun (v : List ℚ) h =>
          let idx := simpleHash t h % dims
          let sign : ℚ := if simpleHash t (h + 1000) % 2 = 0 then 1 else -1
          v.set idx (v.getD idx 0 + sign * tf / 3))
        v)
    start
  let norm := ratSqrt (vec.foldl (fun s x => s + x * x) 0)
  if norm > 0 then vec.map fun x => x / norm else vec

/-- A structured (JSON) value, with `stringifyJson` as the deterministic
model of `JSON.stringify` (object keys in insertion order). -/
inductive Json where
  | str (s : String)
  | num (q : ℚ)
  | bool (b : Bool)
  | null
  | arr (l : List Json)
  | obj (l : List (String × Json))
deriving Repr

mutual

def stringifyJson : Json → String
  | .str s => "\"" ++ s ++ "\""
  | .num q => toString q.num ++ "/" ++ toString q.den
  | .bool b => if b then "true" else "false"
  | .null => "null"
  | .arr l => "[" ++ stringifyList l ++ "]"
  | .obj l => "\x7b" ++ stringifyFields l ++ "\x7d"

def stringifyList : List Json → String
  | [] => ""
  | [j] => stringifyJson j
  | j :: rest => stringifyJson j ++ "," ++ stringifyList rest

def stringifyFields : List (String × Json) → String
  | [] => ""
  | [(k, j)] => "\"" ++ k ++ "\":" ++ stringifyJson j
  | (k, j) :: rest =>
    "\"" ++ k ++ "\":" ++ stringifyJson j ++ "," ++ stringifyFields rest

end

/-- The input of `embed`: a string, or a structured value that is first
serialised deterministically. -/
def embedInput (input : String ⊕ Json) (dims : ℕ) : List ℚ :=
  match input with
  | .inl s => embed s dims
  | .inr j => embed (stringifyJson j) dims

/-- Dot product of two vectors over their common prefix (after the
dimension check of `cosineSimilarity`, the lengths agree). -/
def dotQ (a b : List ℚ) : ℚ :=
  (a.zip b).foldl (fun s p => s + p.1 * p.2) 0

/-- Sum of squares of a vector. -/
def normSq (a : List ℚ) : ℚ :=
  a.foldl (fun s x => s + x * x) 0

/-- The arithmetic of `cosineSimilarity` (both `embedding.ts` and the
private copies in `ivf.ts`), after the dimension check. -/
def cosineSimilarityT (a b : List ℚ) : ℚ :=
  let denominator := ratSqrt (normSq a) * ratSqrt (normSq b)
  if denominator = 0 then 0 else dotQ a b / denominator

/-- `cosineSimilarity(a, b)`: throws on mismatched dimensions. -/
def cosineSimilarity (a b : List ℚ) : Except String ℚ :=
  if a.length ≠ b.length then .error "Vector dimensions must match"
  else .ok (cosineSimilarityT a b)

/-! ## Conformal prediction (`calibrate`, `interval`) -/

/-- `calibrate(scores, alpha)`: `(1-alpha)` conformal quantile of the
calibration scores; throws on an empty score list. -/
def calibrate (scores : List ℚ) (alpha : ℚ) : Except String ℚ :=
  if scores.length = 0 then
    .error "Cannot calibrate with empty scores array"
  else
    let sorted := sortBy (fun a b => decide (a ≤ b)) scores
    let n : ℤ := sorted.length
    let quantileIdx : ℤ := Int.ceil (((n : ℚ) + 1) * (1 - alpha)) - 1
    let idx : ℤ := max 0 (min (n - 1) quantileIdx)
    .ok (sorted.getD idx.toNat 0)

/-- The `ConformalInterval` record. -/
structure ConformalInterval where
  lower : ℚ
  upper : ℚ
  coverage : ℚ
deriving Repr, DecidableEq

/-- `interval(prediction, quantile, alpha)`: symmetric interval. -/
def interval (prediction quantile alpha : ℚ) : ConformalInterval :=
  { lower := prediction - quantile
    upper := prediction + quantile
    coverage := 1 - alpha }

/-! ## Platt scaling (`confidence.ts`) -/

/-- The `CalibrationModel` record. -/
structure CalibrationModel where
  a : ℚ
  b : ℚ
deriving Repr, DecidableEq

/-- `applyPlatt(score, model) = 1 / (1 + exp(a·score + b))`. -/
def applyPlatt (score : ℚ) (model : CalibrationModel) : ℚ :=
  1 / (1 + expQ (model.a * score + model.b))

/-- The gradient-descent loop of `fitPlatt`, with the iteration counter as
fuel (`maxIter = 100` in the source).  Each step accumulates the gradients
over the samples, updates `(a, b)` with learning rate `0.01`, and stops
early when `|Δa| + |Δb| < 1e-6`.  (The source also accumulates a
`logLikelihood` value in the same loop; it is never read, so it is not
modelled.) -/
def fitPlattLoop (samples : List (ℚ × ℚ)) (hiTarget loTarget : ℚ) :
    ℕ → ℚ → ℚ → ℚ × ℚ
  | 0, a, b => (a, b)
  | iter + 1, a, b =>
    let grads := samples.foldl
      (fun (g : ℚ × ℚ) s =>
        let target := if s.2 > 1/2 then hiTarget else loTarget
        let pred := applyPlatt s.1 ⟨a, b⟩
        let err := pred - target
        (g.1 + err * s.1, g.2 + err))
      (0, 0)
    let newA := a - (1/100) * grads.1
    let newB := b - (1/100) * grads.2
    let change := |newA - a| + |newB - b|
    if change < 1/1000000 then (newA, newB)
    else fitPlattLoop samples hiTarget loTarget iter newA newB

/-- `fitPlatt(scores, labels)` from `confidence.ts`: throws on a length
mismatch, returns the initial model `(a, b) = (-1, 0)` on empty input or
when all labels fall in a single class (positive means `label > 0.5`),
and otherwise runs up to 100 gradient-descent steps. -/
def fitPlatt (scores labels : List ℚ) : Except String CalibrationModel :=
  if scores.length ≠ labels.length then
    .error "scores and labels must have same length"
  else if scores.length = 0 then .ok ⟨-1, 0⟩
  else
    let a : ℚ := -1
    let b : ℚ := 0
    let nPos := (labels.filter fun l => l > 1/2).length
    let nNeg := labels.length - nPos
    if nPos = 0 ∨ nNeg = 0 then .ok ⟨a, b⟩
    else
      let hiTarget := ((nPos : ℚ) + 1) / ((nPos : ℚ) + 2)
      let loTarget := 1 / ((nNeg : ℚ) + 2)
      let p := fitPlattLoop (scores.zip labels) hiTarget loTarget 100 a b
      .ok ⟨p.1, p.2⟩

/-- `calibrateConfidence(score, model?)`: clamp to `[0, 100]` without a
model, otherwise `applyPlatt · 100`. -/
def calibrateConfidence (score : ℚ) (model : Option CalibrationModel) :
    ℚ :=
  match model with
  | none => max 0 (min 100 score)
  | some m => applyPlatt score m * 100

/-! ## Inverted index (`inverted.ts`) -/

/-- The `InvertedIndex` state: field name → value → span-id list. -/
structure InvertedIndex where
  indices : List (String × List (String × List String))
deriving Repr, DecidableEq

/-- The empty index. -/
def InvertedIndex.empty : InvertedIndex := ⟨[]⟩

/-- `add(spanId, field, value)`: append to the `(field, value)` list. -/
def InvertedIndex.addEntry (idx : InvertedIndex) (spanId field value : String) :
    InvertedIndex :=
  let fieldIndex := (mapGet idx.indices field).getD []
  let lst := (mapGet fieldIndex value).getD []
  ⟨mapSet idx.indices field (mapSet fieldIndex value (lst ++ [spanId]))⟩

/-- `find(field, value)`: the stored list, or `[]`. -/
def InvertedIndex.find (idx : InvertedIndex) (field value : String) :
    List String :=
  ((mapGet idx.indices field).bind fun fi => mapGet fi value).getD []

/-- One inner loop of the Levenshtein dynamic program: given the
character `bc` of `b` for the current row, the remaining characters of
`a`, the cells of the previous row above and diagonally above, and the
cell to the left, produce the rest of the current row (columns
`j = 1..|a|`).  Mirrors the `matrix[i][j]` recurrence of the source:
equal characters copy the diagonal, otherwise `1 + min` of substitution,
insertion and deletion. -/
def levRowAux (bc : Char) : List Char → List ℕ → ℕ → ℕ → List ℕ
  | [], _, _, _ => []
  | ac :: as, prevUp, diag, left =>
    match prevUp with
    | [] => []
    | up :: prest =>
      let cell := if bc = ac then diag else 1 + min diag (min left up)
      cell :: levRowAux bc as prest up cell

/-- `levenshteinDistance(a, b)`: the classic matrix dynamic program of
`inverted.ts`, computed row by row (row `i` corresponds to the first `i`
characters of `b`; row 0 is `[0, 1, …, |a|]` and each row starts with
`matrix[i][0] = i`).  Returns `matrix[|b|][|a|]`. -/
def levDP (a b : List Char) : ℕ :=
  let row0 := List.range (a.length + 1)
  let final := b.foldl
    (fun (p : List ℕ × ℕ) bc =>
      let i := p.2 + 1
      match p.1 with
      | [] => ([], i)
      | diag0 :: rest => (i :: levRowAux bc a rest diag0 i, i))
    (row0, 0)
  final.1.getLastD 0

/-- `levenshteinDistance` on strings. -/
def levenshteinDistance (a b : String) : ℕ := levDP a.data b.data

/-- `levenshteinSimilarity(a, b) = 1 - distance / max(|a|, |b|)`, with the
empty-empty case equal to 1. -/
def levenshteinSimilarity (a b : String) : ℚ :=
  let maxLen := max a.length b.length
  if maxLen = 0 then 1
  else 1 - (levenshteinDistance a b : ℚ) / (maxLen : ℚ)

/-- Does `hay` start with `needle`? -/
def startsWithL : List Char → List Char → Bool
  | [], _ => true
  | _ :: _, [] => false
  | a :: as, b :: bs => a = b && startsWithL as bs

/-- Does `hay` contain `needle` as a contiguous substring? -/
def subListAt (needle : List Char) : List Char → Bool
  | [] => needle.isEmpty
  | c :: rest => startsWithL needle (c :: rest) || subListAt needle rest

/-- JS `String.prototype.includes` on our ASCII strings: contiguous
substring containment. -/
def strIncludes (hay needle : String) : Bool :=
  subListAt needle.data hay.data

/-- ASCII `toLowerCase` of a whole string. -/
def strToLower (s : String) : String := String.mk (s.data.map jsToLower)

/-- The fuzzy match test of `filterByAction`: case-insensitive substring
containment in either direction, or Levenshtein similarity above 0.7. -/
def fuzzyActionMatch (queryLower storedLower : String) : Bool :=
  strIncludes storedLower queryLower || strIncludes queryLower storedLower ||
    decide (levenshteinSimilarity queryLower storedLower > 7/10)

/-- `filterByAction(ids, action, fuzzy)`.  `ids = none` models the JS
`null` seed.  Fuzzy mode scans every stored action value, collects the
span ids of the matching values into a `Set` (deduplicating while keeping
first-insertion order, modelled by `uniqueFirst`), and finally intersects
with the seed if one was given. -/
def InvertedIndex.filterByAction (idx : InvertedIndex)
    (ids : Option (List String)) (action : String) (fuzzy : Bool) :
    List String :=
  if !fuzzy then
    let found := idx.find "action" action
    match ids with
    | some seed => found.filter fun id => id ∈ seed
    | none => found
  else
    match mapGet idx.indices "action" with
    | none => []
    | some actionIndex =>
      let lowerAction := strToLower action
      let result := uniqueFirst (actionIndex.foldl
        (fun acc p =>
          if fuzzyActionMatch lowerAction (strToLower p.1) then acc ++ p.2
          else acc)
        [])
      match ids with
      | some seed => result.filter fun id => id ∈ seed
      | none => result

/-- `filterByTags(ids, tags)`: OR over the tags, deduplicated in
first-insertion order, then optional intersection with the seed. -/
def InvertedIndex.filterByTags (idx : InvertedIndex)
    (ids : Option (List String)) (tags : List String) : List String :=
  let result := uniqueFirst (tags.foldl (fun acc tag => acc ++ idx.find "tag" tag) [])
  match ids with
  | some seed => result.filter fun id => id ∈ seed
  | none => result

/-- `filterByDomain(ids, domain)`: exact match on the `domain` field, then
optional intersection with the seed. -/
def InvertedIndex.filterByDomain (idx : InvertedIndex)
    (ids : Option (List String)) (domain : String) : List String :=
  let found := idx.find "domain" domain
  match ids with
  | some seed => found.filter fun id => id ∈ seed
  | none => found

/-- `getCount(field, value)`. -/
def InvertedIndex.getCount (idx : InvertedIndex) (field value : String) : ℕ :=
  (idx.find field value).length

/-- A finite sequence of `add(spanId, field, value)` calls applied to a
fresh index. -/
def InvertedIndex.applyAdds (ops : List (String × String × String)) :
    InvertedIndex :=
  ops.foldl (fun idx o => idx.addEntry o.1 o.2.1 o.2.2) InvertedIndex.empty

/-! ## IVF cluster index (`ivf.ts`, `IVFIndex`) -/

/-- `IVFConfig` with the `||`-defaults already applied
(`nClusters = 100`, `nProbe = 10`, `maxIter = 20`). -/
structure IVFConfig where
  nClusters : ℕ
  nProbe : ℕ
  maxIter : ℕ
deriving Repr, DecidableEq

/-- The `IVFIndex` private state. -/
structure IVFState where
  config : IVFConfig
  centroids : List (List ℚ)
  clusters : List (ℕ × List String)
  vectors : List (String × List ℚ)
  built : Bool
deriving Repr, DecidableEq

/-- A fresh `IVFIndex`. -/
def IVFState.init (cfg : IVFConfig) : IVFState :=
  { config := cfg, centroids := [], clusters := [], vectors := [],
    built := false }

/-- `euclideanDistance(a, b)` (vectors of equal dimension at every call
site). -/
def euclideanDist (a b : List ℚ) : ℚ :=
  ratSqrt ((a.zip b).foldl (fun s p => s + (p.1 - p.2) * (p.1 - p.2)) 0)

/-- `add(id, vector)`: store the vector and invalidate the build. -/
def IVFState.add (st : IVFState) (id : String) (v : List ℚ) : IVFState :=
  { st with vectors := mapSet st.vectors id v, built := false }

/-- `IVFIndex.size()`. -/
def IVFState.size (st : IVFState) : ℕ := st.vectors.length

/-- `computeCentroid(vectors)`: elementwise mean.  (The call sites guard
against the empty list, on which the source would throw; the model
returns `[]` there.) -/
def computeCentroid (vecs : List (List ℚ)) : List ℚ :=
  let dim := (vecs.headD []).length
  let sums := vecs.foldl
    (fun acc v => (acc.zip v).map fun p => p.1 + p.2)
    (List.replicate dim 0)
  sums.map fun x => x / (vecs.length : ℚ)

/-- The scanning loop of `findNearestCentroidFrom`: carries the current
index, best index, and best distance. -/
def findNearestAux (v : List ℚ) : List (List ℚ) → ℕ → ℕ → ℚ → ℕ
  | [], _, best, _ => best
  | c :: rest, i, best, bestD =>
    let d := euclideanDist v c
    if d < bestD then findNearestAux v rest (i + 1) i d
    else findNearestAux v rest (i + 1) best bestD

/-- `findNearestCentroidFrom(vector, centroids)`: index of the first
strictly-closest centroid (the JS loop starts from
`minDist = Infinity, nearest = 0`, so the first centroid always becomes
the initial best). -/
def findNearestCentroidFrom (v : List ℚ) (cs : List (List ℚ)) : ℕ :=
  match cs with
  | [] => 0
  | c0 :: rest => findNearestAux v rest 1 0 (euclideanDist v c0)

/-- `Math.min(...centroids.map(dist))` over a non-empty centroid list. -/
def nearestDistTo (v : List ℚ) (cs : List (List ℚ)) : ℚ :=
  match cs with
  | [] => 0
  | c :: rest => rest.foldl (fun m c' => min m (euclideanDist v c')) (euclideanDist v c)

/-- The weighted-selection inner loop of k-means++: subtract weights from
`randVal` until it drops to `≤ 0`, then pick that vector.  `none` models
the loop falling through without a pick (impossible when
`randVal ≤ Σ weights`, which holds for `rand < 1`). -/
def pickByWeight : List (List ℚ × ℚ) → ℚ → Option (List ℚ)
  | [], _ => none
  | (v, d) :: rest, randVal =>
    if randVal - d ≤ 0 then some v else pickByWeight rest (randVal - d)

/-- The `i = 1 .. k-1` loop of `initializeCentroidsKMeansPlusPlus`,
consuming one random draw per round. -/
def initPPLoop (vectors : List (List ℚ)) :
    ℕ → List ℚ → List (List ℚ) → Option (List (List ℚ))
  | 0, _, acc => some acc
  | i + 1, rands, acc =>
    match rands with
    | [] => none
    | r :: rest =>
      let dists := vectors.map fun v =>
        let nd := nearestDistTo v acc
        nd * nd
      let total := dists.foldl (· + ·) 0
      let randVal := r * total
      match pickByWeight (vectors.zip dists) randVal with
      | none => none
      | some c => initPPLoop vectors i rest (acc ++ [c])

/-- `initializeCentroidsKMeansPlusPlus(vectors, k)`: first centroid
uniform (`vectors[⌊rand·n⌋]`), the rest D²-weighted. -/
def initCentroidsPP (vectors : List (List ℚ)) (k : ℕ) (rands : List ℚ) :
    Option (List (List ℚ)) :=
  match rands with
  | [] => none
  | r0 :: rrest =>
    match vectors.get? (Int.floor (r0 * (vectors.length : ℚ))).toNat with
    | none => none
    | some c0 => initPPLoop vectors (k - 1) rrest [c0]

/-- One Lloyd iteration: assign all vectors to their nearest centroid,
then recompute each centroid as the mean of its assignments (empty
clusters keep the previous centroid). -/
def lloydStep (vectors : List (List ℚ)) (k : ℕ)
    (centroids : List (List ℚ)) : List (List ℚ) :=
  let assignments := vectors.map fun v => findNearestCentroidFrom v centroids
  (List.range k).map fun i =>
    let clusterVecs := (vectors.zip assignments).filterMap
      fun p => if p.2 = i then some p.1 else none
    if clusterVecs.length = 0 then centroids.getD i []
    else computeCentroid clusterVecs

/-- `maxCentroidChange(old, new)`. -/
def maxCentroidChange (old new : List (List ℚ)) : ℚ :=
  (old.zip new).foldl (fun m p => max m (euclideanDist p.1 p.2)) 0

/-- The Lloyd iteration loop of `kMeans`, with `maxIter` as fuel and the
`1e-4` early-stopping test. -/
def lloydLoop (vectors : List (List ℚ)) (k : ℕ) :
    ℕ → List (List ℚ) → List (List ℚ)
  | 0, cs => cs
  | it + 1, cs =>
    let ncs := lloydStep vectors k cs
    let change := maxCentroidChange cs ncs
    if change < 1/10000 then ncs else lloydLoop vectors k it ncs

/-- `kMeans(vectors, k)`: if `k ≥ n`, every vector is its own cluster
(`vectors.slice()`); otherwise k-means++ initialisation followed by Lloyd
iterations. -/
def kMeans (vectors : List (List ℚ)) (k maxIter : ℕ) (rands : List ℚ) :
    Option (List (List ℚ)) :=
  if k ≥ vectors.length then some vectors
  else (initCentroidsPP vectors k rands).map (lloydLoop vectors k maxIter)

/-- `build()`: no-op (with a warning) on an empty index; otherwise run
k-means with `k = min(nClusters, n)`, then partition every stored id into
the posting list of its nearest centroid, and set `built`.  `none`
models a crash (`get!` on a missing cluster key) or exhaustion of the
supplied random stream. -/
def IVFState.build (st : IVFState) (rands : List ℚ) : Option IVFState :=
  if st.vectors.length = 0 then some st
  else
    let vectorArray := st.vectors.map (·.2)
    let k := min st.config.nClusters vectorArray.length
    match kMeans vectorArray k st.config.maxIter rands with
    | none => none
    | some cs =>
      let clusters0 := (List.range k).map fun i => (i, ([] : List String))
      match st.vectors.foldlM
        (fun cl p =>
          let ci := findNearestCentroidFrom p.2 cs
          match mapGet cl ci with
          | none => none
          | some lst => some (mapSet cl ci (lst ++ [p.1])))
        clusters0 with
      | none => none
      | some clusters =>
        some { st with centroids := cs, clusters := clusters, built := true }

/-- `search(query, k)` on the cluster index: exact scan when empty or not
built, otherwise scan the postings of the `nProbe` nearest centroids and
return the `k` best by cosine distance. -/
def IVFState.search (st : IVFState) (query : List ℚ) (k : ℕ) :
    List (String × ℚ × ℚ) :=
  if st.vectors.length = 0 then []
  else if !st.built || st.centroids.length = 0 then
    (sortBy (fun a b => decide (a.2.1 ≤ b.2.1))
      (st.vectors.map fun p =>
        let sim := cosineSimilarityT query p.2
        (p.1, 1 - sim, sim))).take k
  else
    let nearestCentroids := ((sortBy (fun a b => decide (a.2 ≤ b.2))
      ((List.range st.centroids.length).map fun i =>
        (i, euclideanDist query (st.centroids.getD i [])))).take
          st.config.nProbe).map (·.1)
    let candidates := nearestCentroids.foldl
      (fun acc ci =>
        acc ++ ((mapGet st.clusters ci).getD []).map fun id =>
          let sim := cosineSimilarityT query ((mapGet st.vectors id).getD [])
          (id, 1 - sim, sim))
      []
    (sortBy (fun a b => decide (a.2.1 ≤ b.2.1)) candidates).take k

/-- An operation on the cluster index, for reachability statements. -/
inductive IVFOp where
  | add (id : String) (v : List ℚ)
  | build (rands : List ℚ)

/-- Apply a sequence of `add`/`build` calls to a fresh index. -/
def applyIVFOps (cfg : IVFConfig) (ops : List IVFOp) : Option IVFState :=
  ops.foldlM
    (fun st op =>
      match op with
      | .add id v => some (st.add id v)
      | .build rands => st.build rands)
    (IVFState.init cfg)

/-! ## HNSW graph index (`ivf.ts`, `HNSWIndex`) -/

/-- `HNSWConfig` with the `||`-defaults already applied
(`M = 16`, `efConstruction = 200`, `efSearch = 50`). -/
structure HNSWConfig where
  M : ℕ
  efConstruction : ℕ
  efSearch : ℕ
deriving Repr, DecidableEq

/-- An `HNSWNode`: id, vector, top level, and per-layer neighbour id
lists (`connections[layer]`, one list per layer `0..level`). -/
structure HNSWNode where
  id : String
  vector : List ℚ
  level : ℕ
  conns : List (List String)
deriving Repr, DecidableEq

/-- The `HNSWIndex` private state. -/
structure HNSWState where
  config : HNSWConfig
  nodes : List (String × HNSWNode)
  entryPoint : Option String
deriving Repr, DecidableEq

/-- A fresh `HNSWIndex`. -/
def HNSWState.init (cfg : HNSWConfig) : HNSWState :=
  { config := cfg, nodes := [], entryPoint := none }

/-- `HNSWIndex.size()`. -/
def HNSWState.size (st : HNSWState) : ℕ := st.nodes.length

/-- The private `cosineSimilarity` of the graph index: throws on a
dimension mismatch (`none` here). -/
def cosOpt (a b : List ℚ) : Option ℚ :=
  if a.length ≠ b.length then none else some (cosineSimilarityT a b)

/-- `distance(a, b) = 1 - cosineSimilarity(a, b)`. -/
def distOpt (a b : List ℚ) : Option ℚ :=
  (cosOpt a b).map fun s => 1 - s

/-- `results[results.length - 1].dist`: the worst (largest) distance in
the sorted bounded result list (only read when the list is non-empty). -/
def worstDist (results : List (String × ℚ)) : ℚ :=
  ((results.getLast?).map (·.2)).getD 0

/-- The search-result record of `ivf.ts`. -/
structure SearchResult where
  id : String
  distance : ℚ
  similarity : ℚ
deriving Repr, DecidableEq

/-- The entry-point initialisation loop of `searchLayer`: every entry is
marked visited and pushed (with its distance to the query) onto both the
frontier and the result list. -/
def HNSWState.searchLayerInit (st : HNSWState) (query : List ℚ) :
    List String → List String × List (String × ℚ) × List (String × ℚ) →
    Option (List String × List (String × ℚ) × List (String × ℚ))
  | [], acc => some acc
  | ep :: rest, (visited, candidates, results) =>
    match mapGet st.nodes ep with
    | none => none
    | some node =>
      match distOpt query node.vector with
      | none => none
      | some d =>
        st.searchLayerInit query rest
          (visited ++ [ep], candidates ++ [(ep, d)], results ++ [(ep, d)])

/-- The neighbour-expansion loop of `searchLayer`: skip visited ids, mark
the rest visited, and push any neighbour that improves on the worst
result (or while the result list is not yet full) onto the frontier and
the result list, re-sorting both and trimming the results to `ef`. -/
def HNSWState.searchLayerNeighbors (st : HNSWState) (query : List ℚ)
    (ef : ℕ) :
    List String → List String → List (String × ℚ) → List (String × ℚ) →
    Option (List String × List (String × ℚ) × List (String × ℚ))
  | [], visited, candidates, results => some (visited, candidates, results)
  | nid :: rest, visited, candidates, results =>
    if nid ∈ visited then
      st.searchLayerNeighbors query ef rest visited candidates results
    else
      match mapGet st.nodes nid with
      | none => none
      | some node =>
        match distOpt query node.vector with
        | none => none
        | some dist =>
          if results.length < ef ∨ dist < worstDist results then
            let candidates' := sortBy (fun a b => decide (a.2 ≤ b.2))
              (candidates ++ [(nid, dist)])
            let results0 := sortBy (fun a b => decide (a.2 ≤ b.2))
              (results ++ [(nid, dist)])
            let results' := if results0.length > ef then results0.dropLast
              else results0
            st.searchLayerNeighbors query ef rest (visited ++ [nid])
              candidates' results'
          else
            st.searchLayerNeighbors query ef rest (visited ++ [nid])
              candidates results

/-- The best-first `while` loop of `searchLayer`, with explicit fuel
(the JS loop terminates because every node is visited at most once; the
callers pass ample fuel, and exhaustion yields `none`, never a wrong
result). -/
def HNSWState.searchLayerLoop (st : HNSWState) (query : List ℚ)
    (layer ef : ℕ) :
    ℕ → List String → List (String × ℚ) → List (String × ℚ) →
    Option (List (String × ℚ))
  | 0, _, _, _ => none
  | fuel + 1, visited, candidates, results =>
    match candidates with
    | [] => some results
    | current :: rest =>
      if results.length ≥ ef ∧ current.2 > worstDist results then
        some results
      else
        match mapGet st.nodes current.1 with
        | none => none
        | some node =>
          match st.searchLayerNeighbors query ef
            (node.conns.getD layer []) visited rest results with
          | none => none
          | some (visited', candidates', results') =>
            st.searchLayerLoop query layer ef fuel visited' candidates'
              results'

/-- `searchLayer(query, entryPoints, layer, ef)`, returning the result
ids in ascending distance order.  Entry points are passed by id and
looked up in the node map (the JS passes live node references). -/
def HNSWState.searchLayer (st : HNSWState) (query : List ℚ)
    (entryIds : List String) (layer ef fuel : ℕ) : Option (List String) :=
  match st.searchLayerInit query entryIds ([], [], []) with
  | none => none
  | some (visited, candidates, results) =>
    match st.searchLayerLoop query layer ef fuel visited
      (sortBy (fun a b => decide (a.2 ≤ b.2)) candidates)
      (sortBy (fun a b => decide (a.2 ≤ b.2)) results) with
    | none => none
    | some out => some (out.map (·.1))

/-- `selectNeighbors(vector, candidates, M)`: all candidates if they fit,
otherwise the `M` closest (stable sort by distance). -/
def HNSWState.selectNeighbors (st : HNSWState) (vector : List ℚ)
    (candidates : List String) (M : ℕ) : Option (List String) :=
  if candidates.length ≤ M then some candidates
  else
    match candidates.mapM (fun cid =>
      match mapGet st.nodes cid with
      | none => none
      | some node => (distOpt vector node.vector).map fun d => (cid, d)) with
    | none => none
    | some pairs =>
      some (((sortBy (fun a b => decide (a.2 ≤ b.2)) pairs).take M).map (·.1))

/-- `pruneConnections(node, layer, M)`: keep the `M` closest neighbour
ids of the given node at the given layer. -/
def HNSWState.pruneConnections (st : HNSWState) (node : HNSWNode)
    (layer M : ℕ) : Option (List String) :=
  let connections := node.conns.getD layer []
  if connections.length ≤ M then some connections
  else
    match connections.mapM (fun cid =>
      match mapGet st.nodes cid with
      | none => none
      | some neighbor =>
        (distOpt node.vector neighbor.vector).map fun d => (cid, d)) with
    | none => none
    | some pairs =>
      some (((sortBy (fun a b => decide (a.2 ≤ b.2)) pairs).take M).map (·.1))

/-- One round of the bidirectional-connection loop of `insert`: push the
neighbour onto the new node's layer list, push the new node onto the
neighbour's layer list, and prune the neighbour's list if it now exceeds
`M`.  An out-of-range layer access (`connections[lc]` on a node of lower
level) is the JS crash, `none` here. -/
def HNSWState.connectOne (st : HNSWState) (id : String) (lc M : ℕ)
    (nid : String) : Option HNSWState :=
  match mapGet st.nodes id with
  | none => none
  | some node =>
    if lc < node.conns.length then
      let node1 := { node with
        conns := node.conns.set lc (node.conns.getD lc [] ++ [nid]) }
      let st1 := { st with nodes := mapSet st.nodes id node1 }
      match mapGet st1.nodes nid with
      | none => none
      | some neighborNode =>
        if lc < neighborNode.conns.length then
          let nn1 := { neighborNode with
            conns := neighborNode.conns.set lc
              (neighborNode.conns.getD lc [] ++ [id]) }
          let st2 := { st1 with nodes := mapSet st1.nodes nid nn1 }
          if (nn1.conns.getD lc []).length > M then
            match st2.pruneConnections nn1 lc M with
            | none => none
            | some pruned =>
              let nn2 := { nn1 with conns := nn1.conns.set lc pruned }
              some { st2 with nodes := mapSet st2.nodes nid nn2 }
          else some st2
        else none
    else none

/-- The insertion loop body at one layer: search, select, connect. -/
def HNSWState.insertAtLayer (st : HNSWState) (id : String)
    (vector : List ℚ) (nearest : List String) (lc fuel : ℕ) :
    Option (HNSWState × List String) :=
  match st.searchLayer vector nearest lc st.config.efConstruction fuel with
  | none => none
  | some candidates =>
    let M := if lc = 0 then st.config.M * 2 else st.config.M
    match st.selectNeighbors vector candidates M with
    | none => none
    | some neighbors =>
      match neighbors.foldlM (fun st n => st.connectOne id lc M n) st with
      | none => none
      | some st' => some (st', candidates)

/-- `insert(id, vector)`.  The randomly selected top layer (`selectLevel`
draws from `Math.random`) is passed in explicitly as `level`. -/
def HNSWState.insert (st : HNSWState) (id : String) (vector : List ℚ)
    (level : ℕ) : Option HNSWState :=
  let node : HNSWNode :=
    { id := id, vector := vector, level := level,
      conns := List.replicate (level + 1) [] }
  let st0 := { st with nodes := mapSet st.nodes id node }
  match st0.entryPoint with
  | none => some { st0 with entryPoint := some id }
  | some ep =>
    match mapGet st0.nodes ep with
    | none => none
    | some entryNode =>
      let fuel := st0.nodes.length * st0.nodes.length + st0.nodes.length + 10
      let descLayers := (List.range (entryNode.level - level)).map
        fun i => entryNode.level - i
      match descLayers.foldlM
        (fun nearest lc => st0.searchLayer vector nearest lc 1 fuel)
        [ep] with
      | none => none
      | some nearest0 =>
        let insLayers := (List.range (level + 1)).map fun i => level - i
        match insLayers.foldlM
          (fun (p : HNSWState × List String) lc =>
            p.1.insertAtLayer id vector p.2 lc fuel)
          (st0, nearest0) with
        | none => none
        | some (st1, _) =>
          some (if level > entryNode.level then
            { st1 with entryPoint := some id }
          else st1)

/-- `exactSearch(query, k)`: linear scan fallback. -/
def HNSWState.exactSearch (st : HNSWState) (query : List ℚ) (k : ℕ) :
    Option (List SearchResult) :=
  match st.nodes.mapM (fun p =>
    (cosOpt query p.2.vector).map fun s => (p.1, 1 - s, s)) with
  | none => none
  | some results =>
    some (((sortBy (fun a b => decide (a.2.1 ≤ b.2.1)) results).take k).map
      fun t => { id := t.1, distance := t.2.1, similarity := t.2.2 })

/-- `search(query, k)`: exact scan when empty, single-node or entryless;
otherwise greedy descent to layer 1 followed by an `ef`-bounded search at
layer 0, taking the best `k`. -/
def HNSWState.search (st : HNSWState) (query : List ℚ) (k : ℕ) :
    Option (List SearchResult) :=
  if st.nodes.length = 0 then some []
  else if st.entryPoint = none ∨ st.nodes.length = 1 then
    st.exactSearch query k
  else
    match st.entryPoint with
    | none => none
    | some ep =>
      match mapGet st.nodes ep with
      | none => none
      | some entryNode =>
        let fuel := st.nodes.length * st.nodes.length + st.nodes.length + 10
        let descLayers := (List.range entryNode.level).map
          fun i => entryNode.level - i
        match descLayers.foldlM
          (fun nearest lc => st.searchLayer query nearest lc 1 fuel)
          [ep] with
        | none => none
        | some nearest =>
          let ef := max st.config.efSearch k
          match st.searchLayer query nearest 0 ef fuel with
          | none => none
          | some ids =>
            (ids.take k).mapM fun nid =>
              match mapGet st.nodes nid with
              | none => none
              | some node =>
                (cosOpt query node.vector).map fun s =>
                  { id := nid, distance := 1 - s, similarity := s }

/-- A finite sequence of `insert` calls on a fresh graph index, with the
randomly drawn levels made explicit. -/
def applyInserts (cfg : HNSWConfig) (ops : List (String × List ℚ × ℕ)) :
    Option HNSWState :=
  ops.foldlM (fun st op => st.insert op.1 op.2.1 op.2.2)
    (HNSWState.init cfg)

/-- The per-layer neighbour cap of the specification: `2M` at layer 0 and
`M` above. -/
def layerCap (M l : ℕ) : ℕ := if l = 0 then 2 * M else M

/-- `x` occurs in some node's layer-`layer` neighbour list. -/
def connIdsAt (st : HNSWState) (layer : ℕ) (x : String) : Prop :=
  ∃ k n, mapGet st.nodes k = some n ∧ x ∈ n.conns.getD layer []

/-- The degree-cap invariant: no node's layer-`l` neighbour list exceeds
`layerCap M l`. -/
def capInv (st : HNSWState) : Prop :=
  ∀ k n, mapGet st.nodes k = some n →
    ∀ l, (n.conns.getD l []).length ≤ layerCap st.config.M l

/-- Closedness: every id stored in a neighbour list is a key of the node
map. -/
def closedInv (st : HNSWState) : Prop :=
  ∀ k n, mapGet st.nodes k = some n →
    ∀ l, ∀ x ∈ n.conns.getD l [], x ∈ mapKeys st.nodes

/-- The entry point, when present, is a key of the node map. -/
def entryInv (st : HNSWState) : Prop :=
  ∀ e, st.entryPoint = some e → e ∈ mapKeys st.nodes

/-- `id` appears in no neighbour list at any layer `< l`. -/
def idFreeBelow (st : HNSWState) (id : String) (l : ℕ) : Prop :=
  ∀ k n, mapGet st.nodes k = some n →
    ∀ l', l' < l → id ∉ n.conns.getD l' []

/-- The cluster-index invariant of the specification: whenever `built` is
set, every stored id appears in exactly one posting, the posting sizes
add up to `size()`, and there are as many centroids as posting keys.
(The `Nodup` conjunct is the internal well-formedness of the JS `Map`:
its keys are distinct.) -/
def IVFInv (st : IVFState) : Prop :=
  (mapKeys st.vectors).Nodup ∧
  (st.built = true →
    (∀ id ∈ mapKeys st.vectors,
      ((st.clusters.map (·.2)).flatten).count id = 1) ∧
    ((st.clusters.map fun p => p.2.length).sum = st.size) ∧
    st.centroids.length = st.clusters.length)

/-! ## `matcher.ts`: the trajectory matcher -/

/-- A span as the matcher reads it: exactly the fields that `addSpan`,
`spanToText` and the evidence constructor consult.  An absent JS field is
`none`; a present string field is truthy iff non-empty.  `env` stands for
`span.context?.environment` and `quality` for
`span.quality?.total_score`. -/
structure Span where
  id : String
  who : Option String
  did : Option String
  this_ : Option String
  if_ok : Option String
  if_not : Option String
  env : Option String
  quality : Option ℚ
  when_ : Option String
  status : Option String
deriving Repr, DecidableEq

/-- The context object of `predict`: the fields `contextToText` consults.
A JS array is always truthy, so a present `previous_actions` is joined
and pushed even when empty. -/
structure Ctx where
  environment : Option String
  stakes : Option String
  previous_actions : Option (List String)
deriving Repr, DecidableEq

/-- `SearchPlan`, with `Date`s as rational epoch values.  `filters` is
carried but never read by `predict`. -/
structure SearchPlan where
  topK : ℕ
  minQuality : ℚ
  timeRange : Option (ℚ × ℚ)
  filters : Option (List (String × String))
deriving Repr, DecidableEq

/-- The `metadata` record pushed with each evidence item. -/
structure EvidenceMeta where
  action : Option String
  status : Option String
  quality : Option ℚ
  when_ : Option String
deriving Repr, DecidableEq

/-- An evidence item from trajectory matching. -/
structure Evidence where
  id : String
  score : ℚ
  content : String
  metadata : EvidenceMeta
deriving Repr, DecidableEq

/-- The `method` discriminator of a `Prediction`. -/
inductive PMethod where
  | trajectory_matching
  | synthesis
  | fallback
  | low_confidence
deriving Repr, DecidableEq

/-- A prediction result. -/
structure Prediction where
  output : String
  confidence : ℚ
  trajectories_used : ℕ
  method : PMethod
  evidence : Option (List Evidence)
  plan : Option SearchPlan
deriving Repr, DecidableEq

/-- `Required<MatcherConfig>`: the constructor fills every field. -/
structure MatcherConfig where
  minTopK : ℕ
  minScore : ℚ
  minConfidence : ℚ
  embeddingDim : ℕ
  defaultTopK : ℕ
deriving Repr, DecidableEq

/-- The configuration produced by `new TrajectoryMatcher({})`:
`minTopK = 3`, `minScore = 0.3`, `minConfidence = 20`,
`embeddingDim = 384`, `defaultTopK = 10`. -/
def defaultMatcherConfig : MatcherConfig := ⟨3, 3/10, 20, 384, 10⟩

/-- Modelled from the spec: the temporal collaborator (§6) is external to
this package and exposes `findInRange({start, end}) → id[]`; only that
query function is visible to the matcher, which treats its answer as
authoritative. -/
def TemporalIndex : Type := (ℚ × ℚ) → List String

/-- Modelled from the spec: the quality collaborator (§6) is external to
this package and exposes `findAbove(threshold) → id[]`; only that query
function is visible to the matcher. -/
def QualityIndex : Type := ℚ → List String

/-- The matcher's state: configuration, the optional indices installed by
`setIndices`, and the owned span store (a JS `Map`). -/
structure MatcherState where
  config : MatcherConfig
  vectorIndex : Option HNSWState
  invertedIndex : Option InvertedIndex
  temporalIndex : Option TemporalIndex
  qualityIndex : Option QualityIndex
  spans : List (String × Span)

/-- `new TrajectoryMatcher(cfg)`: no indices attached, no spans. -/
def matcherInit (cfg : MatcherConfig) : MatcherState :=
  ⟨cfg, none, none, none, none, []⟩

/-- `if (o) parts.push(o)` for an optional string field: push when
present and truthy (non-empty). -/
def pushTruthy (parts : List String) (o : Option String) : List String :=
  match o with
  | some s => if s = "" then parts else parts ++ [s]
  | none => parts

/-- `spanToText(span)`: join the truthy fields `who`, `did`, `this`,
`if_ok`, `context?.environment` with spaces. -/
def spanToText (span : Span) : String :=
  String.intercalate " "
    (pushTruthy (pushTruthy (pushTruthy (pushTruthy (pushTruthy []
      span.who) span.did) span.this_) span.if_ok) span.env)

/-- `contextToText(context, action)`: the action, then the truthy
`environment` and `stakes`, then the joined `previous_actions` if the
array is present. -/
def contextToText (context : Ctx) (action : String) : String :=
  let parts := pushTruthy (pushTruthy [action] context.environment)
    context.stakes
  let parts := match context.previous_actions with
    | some l => parts ++ [String.intercalate " " l]
    | none => parts
  String.intercalate " " parts

/-- JS `a || fallback` on an optional string: the string when present
and non-empty, the fallback otherwise. -/
def firstTruthy (o : Option String) (fallback : String) : String :=
  match o with
  | some s => if s = "" then fallback else s
  | none => fallback

/-- The `metadata` record of an evidence item. -/
def evidenceMeta (span : Span) : EvidenceMeta :=
  ⟨span.did, span.status, span.quality, span.when_⟩

/-- `findMostCommonOutcome(outcomes)`: count exact matches in a `Map`
(first-insertion key order) and return the first strictly-maximal
outcome, starting from `outcomes[0]` with count 0. -/
def findMostCommonOutcome (outcomes : List String) : String :=
  match outcomes with
  | [] => ""
  | first :: _ =>
    let counts := outcomes.foldl
      (fun (m : List (String × ℕ)) o => mapSet m o ((mapGet m o).getD 0 + 1))
      []
    (counts.foldl
      (fun (best : String × ℕ) p => if best.2 < p.2 then p else best)
      (first, 0)).1

/-- `synthesize(evidence, context, action)`: sort a copy of the evidence
by score descending (stable); use the top item when its score exceeds
0.8, the most common of the top five contents when there are at least
three items, the top item otherwise. -/
def synthesize (evidence : List Evidence) (_context : Ctx)
    (_action : String) : String :=
  if evidence.length = 0 then
    "Unable to generate prediction from available data."
  else
    match sortBy (fun a b => decide (b.score ≤ a.score)) evidence with
    | [] => "Unable to generate prediction from available data."
    | top :: rest =>
      if (8 : ℚ) / 10 < top.score then top.content
      else if 3 ≤ (top :: rest).length then
        findMostCommonOutcome (((top :: rest).take 5).map (·.content))
      else top.content

/-- `calculateConfidence(evidence, totalCandidates)`: combine average
score, a count factor and an exponentially decayed variance factor,
scaled and clamped to `[0, 100]`.  (`totalCandidates` is accepted and
ignored, as in the source.) -/
def calculateConfidence (evidence : List Evidence)
    (_totalCandidates : ℕ) : ℚ :=
  if evidence.length = 0 then 0
  else
    let n : ℚ := evidence.length
    let avgScore := (evidence.foldl (fun s e => s + e.score) 0) / n
    let countFactor := min ((evidence.length : ℚ) / 5) 1
    let variance := (evidence.foldl
      (fun s e => s + (e.score - avgScore) * (e.score - avgScore)) 0) / n
    let varianceFactor := expQ (-(variance * 5))
    let rawConfidence := avgScore * (6 / 10) + countFactor * (2 / 10) +
      varianceFactor * (2 / 10)
    max 0 (min 100 (rawConfidence * 100))

/-- `x.toFixed(0)` for a nonnegative rational: round half towards plus
infinity and print the integer. -/
def jsToFixed0 (q : ℚ) : String := toString (Int.floor (q + 1 / 2))

/-- The evidence loop of `predict` over the sliced candidate list: skip
ids missing from the span store, recompute each span's embedding and its
cosine score against the query embedding, drop scores below `minScore`,
and push in candidate order.  A dimension mismatch in `cosineSimilarity`
is the JS throw, `none` here. -/
def collectEvidence (st : MatcherState) (queryEmbedding : List ℚ)
    (ids : List String) : Option (List Evidence) :=
  ids.foldlM
    (fun (acc : List Evidence) id =>
      match mapGet st.spans id with
      | none => some acc
      | some span =>
        let spanText := spanToText span
        let spanEmbedding := embed spanText st.config.embeddingDim
        match cosineSimilarity queryEmbedding spanEmbedding with
        | .error _ => none
        | .ok score =>
          if score < st.config.minScore then some acc
          else some (acc ++ [⟨span.id, score,
            firstTruthy span.if_ok (firstTruthy span.if_not spanText),
            evidenceMeta span⟩]))
    []

/-- The surviving score of one candidate id: the recomputed cosine score
of its span against the query embedding, provided the id resolves, the
dimensions agree and the score passes `minScore`. -/
def surviveScore (st : MatcherState) (queryEmbedding : List ℚ)
    (id : String) : Option ℚ :=
  match mapGet st.spans id with
  | none => none
  | some span =>
    match cosineSimilarity queryEmbedding
        (embed (spanToText span) st.config.embeddingDim) with
    | .error _ => none
    | .ok score =>
      if score < st.config.minScore then none else some score

/-- `predict(context, action, plan)`: the full pipeline — default plan,
topK short-circuit, query embedding, vector search (or the span keys as
fallback), the inverted/temporal/quality filters, the empty-candidates
short-circuit, the evidence loop, the empty-evidence short-circuit,
synthesis, confidence, and the low-confidence short-circuit.  `none` is
a thrown JS exception. -/
def predict (st : MatcherState) (context : Ctx) (action : String)
    (plan : Option SearchPlan) : Option Prediction :=
  let searchPlan := plan.getD ⟨st.config.defaultTopK, 60, none, none⟩
  if searchPlan.topK < st.config.minTopK then
    some { output := "Insufficient search parameters. Please request more results.",
           confidence := 10, trajectories_used := 0,
           method := .low_confidence, evidence := none,
           plan := some searchPlan }
  else
    let queryText := contextToText context action
    let queryEmbedding := embed queryText st.config.embeddingDim
    let candidates0 :=
      match st.vectorIndex with
      | some v =>
        if 0 < v.size then
          (v.search queryEmbedding (searchPlan.topK * 3)).map
            (List.map (·.id))
        else some (mapKeys st.spans)
      | none => some (mapKeys st.spans)
    match candidates0 with
    | none => none
    | some candidates1 =>
      let candidates2 :=
        match st.invertedIndex with
        | some inv =>
          if action = "" then candidates1
          else inv.filterByAction (some candidates1) action true
        | none => candidates1
      let candidates3 :=
        match st.temporalIndex, searchPlan.timeRange with
        | some f, some tr =>
          candidates2.filter fun id => decide (id ∈ f tr)
        | _, _ => candidates2
      let candidateIds :=
        match st.qualityIndex with
        | some f =>
          if searchPlan.minQuality = 0 then candidates3
          else candidates3.filter fun id =>
            decide (id ∈ f searchPlan.minQuality)
        | none => candidates3
      if candidateIds.length = 0 then
        some { output := "No matching trajectories found. Please try a different query or relax filters.",
               confidence := 5, trajectories_used := 0,
               method := .low_confidence, evidence := none,
               plan := some searchPlan }
      else
        match collectEvidence st queryEmbedding
            (candidateIds.take searchPlan.topK) with
        | none => none
        | some evidence =>
          if evidence.length = 0 then
            some { output := "Found trajectories but confidence too low. Unable to provide reliable prediction.",
                   confidence := 15,
                   trajectories_used := candidateIds.length,
                   method := .low_confidence, evidence := some [],
                   plan := some searchPlan }
          else
            let output := synthesize evidence context action
            let confidence := calculateConfidence evidence
              candidateIds.length
            if confidence < st.config.minConfidence then
              some { output := "Low confidence (" ++ jsToFixed0 confidence ++
                       "%). Suggested answer: " ++ output,
                     confidence := confidence,
                     trajectories_used := evidence.length,
                     method := .low_confidence, evidence := some evidence,
                     plan := some searchPlan }
            else
              some { output := output, confidence := confidence,
                     trajectories_used := evidence.length,
                     method := .trajectory_matching,
                     evidence := some evidence, plan := some searchPlan }

/-- The inverted-index notifications of `addSpan`: add `action` for a
truthy `did` and `domain` for a truthy `context?.environment`. -/
def invertedAddSpan (st : MatcherState) (span : Span) : MatcherState :=
  match st.invertedIndex with
  | none => st
  | some inv =>
    let inv := match span.did with
      | some d => if d = "" then inv else inv.addEntry span.id "action" d
      | none => inv
    let inv := match span.env with
      | some e => if e = "" then inv else inv.addEntry span.id "domain" e
      | none => inv
    { st with invertedIndex := some inv }

/-- `addSpan(span)` with the random HNSW level made explicit.  The
notifications to the external temporal/quality collaborators do not
change their query functions, which are all the matcher ever reads. -/
def addSpan (st : MatcherState) (span : Span) (level : ℕ) :
    Option MatcherState :=
  let spans := mapSet st.spans span.id span
  match st.vectorIndex with
  | some v =>
    match v.insert span.id
        (embed (spanToText span) st.config.embeddingDim) level with
    | none => none
    | some v' =>
      some (invertedAddSpan
        { st with spans := spans, vectorIndex := some v' } span)
  | none => some (invertedAddSpan { st with spans := spans } span)

instance instDecidableEqExcept {ε α : Type} [DecidableEq ε] [DecidableEq α] :
    DecidableEq (Except ε α) := fun x y =>
  match x, y with
  | .ok a, .ok b =>
    if h : a = b then isTrue (by rw [h]) else isFalse (by simp [h])
  | .error e, .error f =>
    if h : e = f then isTrue (by rw [h]) else isFalse (by simp [h])
  | .ok _, .error _ => isFalse (by simp)
  | .error _, .ok _ => isFalse (by simp)

/-- Sortedness (with respect to a boolean "may precede" relation). -/
def sortedBy {α : Type} (le : α → α → Bool) : List α → Prop :=
  List.Pairwise (fun a b => le a b = true)

instance {α : Type} (le : α → α → Bool) (l : List α) :
    Decidable (sortedBy le l) :=
  inferInstanceAs (Decidable (List.Pairwise _ l))

/-! # Theorems -/

theorem natSqrtIter_eq_iter (n : ℕ) :
    ∀ (fuel guess : ℕ), guess ≤ fuel →
      natSqrtIter n fuel guess = Nat.sqrt.iter n guess := by
  intro fuel
  induction fuel with
  | zero =>
    intro guess hg
    interval_cases guess
    unfold Nat.sqrt.iter
    simp [natSqrtIter]
  | succ f ih =>
    intro guess hg
    rw [natSqrtIter]
    unfold Nat.sqrt.iter
    by_cases h : (guess + n / guess) / 2 < guess
    · simp only [h, if_true, dif_pos h]
      exact ih _ (by omega)
    · simp [h]

theorem natSqrt_eq (n : ℕ) : natSqrt n = Nat.sqrt n := by
  unfold natSqrt Nat.sqrt
  split
  · rfl
  · exact natSqrtIter_eq_iter n n (n / 2) (Nat.div_le_self n 2)

theorem intSqrt_eq (m : ℤ) : intSqrt m = Int.sqrt m := by
  unfold intSqrt Int.sqrt
  rw [natSqrt_eq]

theorem ratSqrt_eq_sqrt (q : ℚ) : ratSqrt q = Rat.sqrt q := by
  unfold ratSqrt Rat.sqrt
  rw [natSqrt_eq, intSqrt_eq]

/-- `ratSqrt` is exact on squares. -/
theorem ratSqrt_sq (x : ℚ) : ratSqrt (x * x) = |x| := by
  rw [ratSqrt_eq_sqrt, Rat.sqrt_eq]

theorem expPos_pos_of_nonneg {x : ℚ} (hx : 0 ≤ x) : 0 < expPos x := by
  unfold expPos; positivity

theorem expPos_one_le_of_nonneg {x : ℚ} (hx : 0 ≤ x) : 1 ≤ expPos x := by
  unfold expPos; nlinarith [pow_nonneg hx 2, pow_nonneg hx 3, pow_nonneg hx 4]

/-- On nonpositive arguments the exponential model lies in `(0, 1]`. -/
theorem expQ_pos_le_one_of_nonpos {x : ℚ} (hx : x ≤ 0) :
    0 < expQ x ∧ expQ x ≤ 1 := by
  unfold expQ
  rcases lt_or_eq_of_le hx with hlt | heq
  · rw [if_pos hlt]
    have h1 : 1 ≤ expPos (-x) := expPos_one_le_of_nonneg (by linarith)
    have h0 : 0 < expPos (-x) := by linarith
    constructor
    · positivity
    · rw [div_le_one h0]; linarith
  · subst heq
    norm_num [expPos]

theorem mapGet_set_self {κ ν : Type} [DecidableEq κ] (l : List (κ × ν))
    (k : κ) (v : ν) : mapGet (mapSet l k v) k = some v := by
  induction l with
  | nil => simp [mapSet, mapGet]
  | cons hd tl ih =>
    obtain ⟨k', v'⟩ := hd
    by_cases h : k' = k <;> simp [mapSet, mapGet, h, ih]

theorem mapGet_set_ne {κ ν : Type} [DecidableEq κ] (l : List (κ × ν))
    (k k' : κ) (v : ν) (h : k ≠ k') : mapGet (mapSet l k v) k' = mapGet l k' := by
  induction l with
  | nil => simp [mapSet, mapGet, h]
  | cons hd tl ih =>
    obtain ⟨k'', v''⟩ := hd
    by_cases h2 : k'' = k
    · subst h2; simp [mapSet, mapGet, h, Ne.symm h]
    · simp only [mapSet, if_neg h2, mapGet]
      by_cases h3 : k'' = k' <;> simp [h3, ih]

theorem mem_uniqueFirst_aux (l acc : List String) (x : String) :
    x ∈ l.foldl (fun acc t => if t ∈ acc then acc else acc ++ [t]) acc ↔
      x ∈ acc ∨ x ∈ l := by
  induction l generalizing acc with
  | nil => simp
  | cons t l ih =>
    simp only [List.foldl_cons]
    split
    · rw [ih]
      rename_i ht
      constructor
      · rintro (h | h)
        · exact .inl h
        · exact .inr (List.mem_cons_of_mem t h)
      · rintro (h | h)
        · exact .inl h
        · rcases List.mem_cons.mp h with rfl | h
          · exact .inl ht
          · exact .inr h
    · rw [ih]
      simp only [List.mem_append, List.mem_singleton, List.mem_cons]
      tauto

theorem mem_uniqueFirst (l : List String) (x : String) :
    x ∈ uniqueFirst l ↔ x ∈ l := by
  unfold uniqueFirst
  rw [mem_uniqueFirst_aux]
  simp

theorem mem_insertSortedBy {α : Type} (le : α → α → Bool) (a x : α)
    (l : List α) : x ∈ insertSortedBy le a l ↔ x = a ∨ x ∈ l := by
  induction l with
  | nil => simp [insertSortedBy]
  | cons b l ih =>
    simp only [insertSortedBy]
    split
    · simp
    · simp only [List.mem_cons, ih]
      tauto

theorem mem_sortBy {α : Type} (le : α → α → Bool) (x : α) (l : List α) :
    x ∈ sortBy le l ↔ x ∈ l := by
  induction l with
  | nil => simp [sortBy]
  | cons a l ih => simp [sortBy, mem_insertSortedBy, ih]

theorem length_insertSortedBy {α : Type} (le : α → α → Bool) (a : α)
    (l : List α) : (insertSortedBy le a l).length = l.length + 1 := by
  induction l with
  | nil => simp [insertSortedBy]
  | cons b l ih =>
    simp only [insertSortedBy]
    split <;> simp [ih]

theorem length_sortBy {α : Type} (le : α → α → Bool) (l : List α) :
    (sortBy le l).length = l.length := by
  induction l with
  | nil => rfl
  | cons a l ih => simp [sortBy, length_insertSortedBy, ih]

theorem sorted_insertSortedBy {α : Type} (le : α → α → Bool)
    (htot : ∀ a b, le a b = false → le b a = true)
    (htrans : ∀ a b c, le a b = true → le b c = true → le a c = true)
    (a : α) (l : List α) (h : sortedBy le l) :
    sortedBy le (insertSortedBy le a l) := by
  induction l with
  | nil => simp [insertSortedBy, sortedBy]
  | cons b l ih =>
    simp only [insertSortedBy]
    rcases List.pairwise_cons.mp h with ⟨hb, hl⟩
    split
    · rename_i hab
      exact List.pairwise_cons.mpr ⟨by
        intro x hx
        rcases List.mem_cons.mp hx with rfl | hx
        · exact hab
        · exact htrans a b x hab (hb x hx), h⟩
    · rename_i hab
      have hba : le b a = true := htot a b (by simpa using hab)
      refine List.pairwise_cons.mpr ⟨?_, ih hl⟩
      intro x hx
      rcases (mem_insertSortedBy le a x l).mp hx with rfl | hx
      · exact hba
      · exact hb x hx

theorem sorted_sortBy {α : Type} (le : α → α → Bool)
    (htot : ∀ a b, le a b = false → le b a = true)
    (htrans : ∀ a b c, le a b = true → le b c = true → le a c = true)
    (l : List α) : sortedBy le (sortBy le l) := by
  induction l with
  | nil => simp [sortBy, sortedBy]
  | cons a l ih => exact sorted_insertSortedBy le htot htrans a _ ih

theorem getD_mem {α : Type} (l : List α) (i : ℕ) (d : α)
    (h : i < l.length) : l.getD i d ∈ l := by
  induction l generalizing i with
  | nil => simp at h
  | cons a l ih =>
    cases i with
    | zero => simp [List.getD]
    | succ j =>
      simp only [List.getD_cons_succ]
      exact List.mem_cons_of_mem a (ih j (by simpa using h))

/-! ## Claim C4: split-conformal `calibrate` and `interval` -/

theorem calibrate_ok (scores : List ℚ) (alpha : ℚ) (hne : scores ≠ []) :
    calibrate scores alpha =
      .ok ((sortBy (fun a b => decide (a ≤ b)) scores).getD
        (max 0 (min ((scores.length : ℤ) - 1)
          (Int.ceil (((scores.length : ℚ) + 1) * (1 - alpha)) - 1))).toNat 0) := by
  unfold calibrate
  rw [if_neg (by simpa using hne)]
  simp only [length_sortBy]
  push_cast
  rfl

/-- C4.  For every non-empty score list and `α ∈ (0,1)`, conformal
`calibrate(scores, α)` returns `sorted[idx]` with
`idx = ⌈(n+1)(1−α)⌉ − 1` clamped to `[0, n−1]` over the ascending sort,
hence an element of `scores`; it fails exactly on the empty list.  In
particular `calibrate([0.10, 0.15, 0.18, 0.20, 0.25, 0.30], 0.1) = 0.30`
and `interval(0.5, 0.3, 0.1) = {lower: 0.2, upper: 0.8, coverage: 0.9}`. -/
theorem conformal_calibrate_c4 :
    (∀ (scores : List ℚ) (alpha : ℚ), scores ≠ [] → 0 < alpha → alpha < 1 →
      ∃ q, calibrate scores alpha = .ok q ∧
        q = (sortBy (fun a b => decide (a ≤ b)) scores).getD
          (max 0 (min ((scores.length : ℤ) - 1)
            (Int.ceil (((scores.length : ℚ) + 1) * (1 - alpha)) - 1))).toNat 0 ∧
        q ∈ scores) ∧
    (∀ (scores : List ℚ) (alpha : ℚ),
      (∃ e, calibrate scores alpha = .error e) ↔ scores = []) ∧
    calibrate [1/10, 3/20, 9/50, 1/5, 1/4, 3/10] (1/10) = .ok (3/10) ∧
    interval (1/2) (3/10) (1/10) =
      { lower := 1/5, upper := 4/5, coverage := 9/10 } := by
  refine ⟨?_, ?_, by decide, by decide⟩
  · intro scores alpha hne _ _
    refine ⟨_, calibrate_ok scores alpha hne, rfl, ?_⟩
    have hn : 1 ≤ scores.length := List.length_pos.mpr hne
    have hlt : (max 0 (min ((scores.length : ℤ) - 1)
        (Int.ceil (((scores.length : ℚ) + 1) * (1 - alpha)) - 1))).toNat <
        (sortBy (fun a b => decide (a ≤ b)) scores).length := by
      rw [length_sortBy]
      omega
    rw [← mem_sortBy (fun a b => decide (a ≤ b))]
    exact getD_mem _ _ _ hlt
  · intro scores alpha
    constructor
    · rintro ⟨e, he⟩
      by_contra hne
      rw [calibrate_ok scores alpha hne] at he
      exact Except.noConfusion he
    · rintro rfl
      exact ⟨_, rfl⟩

/-- C4 witness: the general part of `conformal_calibrate_c4` at the
concrete input `scores = [2], α = 1/2`. -/
theorem conformal_calibrate_c4_witness :
    ∃ q, calibrate [(2 : ℚ)] (1/2) = .ok q ∧
      q = (sortBy (fun a b => decide (a ≤ b)) [(2 : ℚ)]).getD
        (max 0 (min (([(2 : ℚ)].length : ℤ) - 1)
          (Int.ceil ((([(2 : ℚ)].length : ℚ) + 1) * (1 - 1/2)) - 1))).toNat 0 ∧
      q ∈ [(2 : ℚ)] :=
  conformal_calibrate_c4.1 [2] (1/2) (by decide) (by norm_num) (by norm_num)

/-! ## Claim C10: `fitPlatt` fails exactly on a length mismatch -/

/-- C10.  `fitPlatt(scores, labels)` throws exactly when the two lists
have different lengths; on equal-length input (including both empty) it
returns a model. -/
theorem fitPlatt_total_c10 :
    ∀ (scores labels : List ℚ),
      (fitPlatt scores labels =
          .error "scores and labels must have same length" ↔
        scores.length ≠ labels.length) ∧
      (scores.length = labels.length → ∃ m, fitPlatt scores labels = .ok m) := by
  intro scores labels
  unfold fitPlatt
  by_cases hlen : scores.length ≠ labels.length
  · rw [if_pos hlen]
    exact ⟨⟨fun _ => hlen, fun _ => rfl⟩, fun h => absurd h hlen⟩
  · rw [if_neg hlen]
    push_neg at hlen
    refine ⟨⟨fun h => ?_, fun h => absurd hlen h⟩, fun _ => ?_⟩
    · by_cases hz : scores.length = 0
      · rw [if_pos hz] at h
        exact Except.noConfusion h
      · rw [if_neg hz] at h
        dsimp only at h
        by_cases hg : (labels.filter fun l => decide (l > 1/2)).length = 0 ∨
            labels.length - (labels.filter fun l => decide (l > 1/2)).length = 0
        · rw [if_pos hg] at h
          exact Except.noConfusion h
        · rw [if_neg hg] at h
          exact Except.noConfusion h
    · by_cases hz : scores.length = 0
      · rw [if_pos hz]
        exact ⟨_, rfl⟩
      · rw [if_neg hz]
        dsimp only
        by_cases hg : (labels.filter fun l => decide (l > 1/2)).length = 0 ∨
            labels.length - (labels.filter fun l => decide (l > 1/2)).length = 0
        · rw [if_pos hg]
          exact ⟨_, rfl⟩
        · rw [if_neg hg]
          exact ⟨_, rfl⟩

/-- C10 witness: `fitPlatt` on two empty lists returns a model. -/
theorem fitPlatt_total_c10_witness : ∃ m, fitPlatt [] [] = .ok m :=
  (fitPlatt_total_c10 [] []).2 rfl

/-! ## Claim C7: one-class input to `fitPlatt` -/

/-- C7 (amended).  `fitPlatt` never fails on empty input or input whose
labels are all of one class in the sense of the code's class split —
positives are `label > 0.5` — and in those cases returns the initial
model `(a, b) = (-1, 0)` unchanged. -/
theorem fitPlatt_one_class_c7 (scores labels : List ℚ)
    (hlen : scores.length = labels.length)
    (hclass : (∀ l ∈ labels, l > 1/2) ∨ (∀ l ∈ labels, l ≤ 1/2)) :
    fitPlatt scores labels = .ok ⟨-1, 0⟩ := by
  unfold fitPlatt
  rw [if_neg (by omega)]
  by_cases hz : scores.length = 0
  · rw [if_pos hz]
  · rw [if_neg hz]
    have hguard : (labels.filter fun l => decide (l > 1/2)).length = 0 ∨
        labels.length - (labels.filter fun l => decide (l > 1/2)).length = 0 := by
      rcases hclass with hall | hall
      · right
        have : labels.filter (fun l => decide (l > 1/2)) = labels :=
          List.filter_eq_self.mpr (fun a ha => by simpa using hall a ha)
        rw [this]
        omega
      · left
        have : labels.filter (fun l => decide (l > 1/2)) = [] :=
          List.filter_eq_nil_iff.mpr (fun a ha => by simpa using not_lt.mpr (hall a ha))
        rw [this]
        rfl
    rw [if_pos hguard]

/-- C7 witness: a one-class input (all labels positive) on which
`fitPlatt` returns the initial model. -/
theorem fitPlatt_one_class_c7_witness :
    fitPlatt [(1 : ℚ), 2] [(1 : ℚ), 1] = .ok ⟨-1, 0⟩ :=
  fitPlatt_one_class_c7 [1, 2] [1, 1] rfl (.inl (by intro l hl; fin_cases hl <;> norm_num))

/-- In the run `fitPlatt([0,0,0], [1, 0.5, 0.5])`, every gradient step
leaves `a` at `-1` and decreases `b` by at least `1/300`, and the early
convergence exit never fires. -/
theorem plattLoop_b_drop (fuel : ℕ) :
    ∀ b : ℚ, b ≤ 0 →
      (fitPlattLoop [((0 : ℚ), (1 : ℚ)), ((0 : ℚ), 1/2), ((0 : ℚ), 1/2)]
        (2/3) (1/4) (fuel + 1) (-1) b).2 ≤ b - 1/300 := by
  induction fuel with
  | zero =>
    intro b hb
    obtain ⟨hE0, hE1⟩ := expQ_pos_le_one_of_nonpos hb
    rw [fitPlattLoop]
    have hP : applyPlatt 0 ⟨-1, b⟩ = 1 / (1 + expQ b) := by
      simp [applyPlatt]
    simp only [List.foldl, hP]
    norm_num
    have hE2 : (0 : ℚ) < 1 + expQ b := by linarith
    have hPhalf : (1 : ℚ)/2 ≤ (1 + expQ b)⁻¹ := by
      have h12 := one_div_le_one_div_of_le hE2 (show 1 + expQ b ≤ 2 by linarith)
      simp only [one_div] at h12
      linarith
    split <;> simp only [fitPlattLoop] <;> linarith
  | succ f ih =>
    intro b hb
    obtain ⟨hE0, hE1⟩ := expQ_pos_le_one_of_nonpos hb
    rw [fitPlattLoop]
    have hP : applyPlatt 0 ⟨-1, b⟩ = 1 / (1 + expQ b) := by
      simp [applyPlatt]
    simp only [List.foldl, hP]
    norm_num
    have hE2 : (0 : ℚ) < 1 + expQ b := by linarith
    have hPhalf : (1 : ℚ)/2 ≤ (1 + expQ b)⁻¹ := by
      have h12 := one_div_le_one_div_of_le hE2 (show 1 + expQ b ≤ 2 by linarith)
      simp only [one_div] at h12
      linarith
    split
    · linarith
    · have hrec := ih (b - 1/100 * ((1 + expQ b)⁻¹ - 2/3 + ((1 + expQ b)⁻¹ - 1/4)
        + ((1 + expQ b)⁻¹ - 1/4))) (by linarith)
      linarith

/-- C7 counterexample.  The claim's notion of "one class" is
`label ≥ 0.5` on both sides; with labels `[1, 0.5, 0.5]` (all `≥ 0.5`)
and scores `[0, 0, 0]`, the code classifies `0.5` as negative, runs the
gradient loop, and returns a model different from the initial
`(a, b) = (-1, 0)`. -/
theorem fitPlatt_c7_counterexample :
    (∀ l ∈ [(1 : ℚ), 1/2, 1/2], l ≥ 1/2) ∧
    fitPlatt [0, 0, 0] [1, 1/2, 1/2] ≠ .ok ⟨-1, 0⟩ := by
  constructor
  · intro l hl
    fin_cases hl <;> norm_num
  · have hrun : fitPlatt [0, 0, 0] [1, 1/2, 1/2] =
        .ok ⟨(fitPlattLoop [((0 : ℚ), (1 : ℚ)), ((0 : ℚ), 1/2), ((0 : ℚ), 1/2)]
            (2/3) (1/4) 100 (-1) 0).1,
          (fitPlattLoop [((0 : ℚ), (1 : ℚ)), ((0 : ℚ), 1/2), ((0 : ℚ), 1/2)]
            (2/3) (1/4) 100 (-1) 0).2⟩ := by
      unfold fitPlatt
      norm_num [List.zip]
    rw [hrun]
    have hdrop := plattLoop_b_drop 99 0 le_rfl
    intro hcontra
    rw [Except.ok.injEq, CalibrationModel.mk.injEq] at hcontra
    have hb0 : (fitPlattLoop [((0 : ℚ), (1 : ℚ)), ((0 : ℚ), 1/2), ((0 : ℚ), 1/2)]
        (2/3) (1/4) 100 (-1) 0).2 = 0 := hcontra.2
    rw [hb0] at hdrop
    linarith

/-! ## Claim C6: fuzzy `filterByAction` -/

/-- Collecting fold of the fuzzy scan: membership characterisation. -/
theorem mem_fuzzy_foldl (ai : List (String × List String))
    (p : String × List String → Bool) (acc : List String) (x : String) :
    x ∈ ai.foldl (fun acc q => if p q then acc ++ q.2 else acc) acc ↔
      x ∈ acc ∨ ∃ q ∈ ai, p q ∧ x ∈ q.2 := by
  induction ai generalizing acc with
  | nil => simp
  | cons q rest ih =>
    simp only [List.foldl_cons]
    split
    · rw [ih]
      simp only [List.mem_append, List.mem_cons]
      constructor
      · rintro ((h | h) | ⟨r, hr, hpr, hxr⟩)
        · exact .inl h
        · exact .inr ⟨q, .inl rfl, by assumption, h⟩
        · exact .inr ⟨r, .inr hr, hpr, hxr⟩
      · rintro (h | ⟨r, (rfl | hr), hpr, hxr⟩)
        · exact .inl (.inl h)
        · exact .inl (.inr hxr)
        · exact .inr ⟨r, hr, hpr, hxr⟩
    · rw [ih]
      simp only [List.mem_cons]
      constructor
      · rintro (h | ⟨r, hr, hpr, hxr⟩)
        · exact .inl h
        · exact .inr ⟨r, .inr hr, hpr, hxr⟩
      · rintro (h | ⟨r, (rfl | hr), hpr, hxr⟩)
        · exact .inl h
        · rename_i hfalse
          rw [hpr] at hfalse
          exact absurd rfl hfalse
        · exact .inr ⟨r, hr, hpr, hxr⟩

/-- C6.  Fuzzy `filterByAction` returns exactly the ids stored under an
action value that (case-insensitively) contains the query, is contained
in the query, or has Levenshtein similarity strictly above 0.7 —
intersected with the seed when one is given.  In particular, on the index
holding `(span1, action, create_user)`, `(span2, action, create_account)`,
`(span3, action, delete_user)`: `find("action", "create_user") = [span1]`
and `filterByAction(*, "create", fuzzy) = [span1, span2]`. -/
theorem inverted_fuzzy_c6 :
    (∀ (idx : InvertedIndex) (ids : Option (List String)) (action x : String),
      x ∈ idx.filterByAction ids action true ↔
        ((∃ q ∈ (mapGet idx.indices "action").getD [],
            (strIncludes (strToLower q.1) (strToLower action) ||
             strIncludes (strToLower action) (strToLower q.1) ||
             decide (levenshteinSimilarity (strToLower action) (strToLower q.1) >
               7/10)) = true ∧
            x ∈ q.2) ∧
          ∀ seed, ids = some seed → x ∈ seed)) ∧
    (((InvertedIndex.empty.addEntry "span1" "action" "create_user").addEntry
        "span2" "action" "create_account").addEntry "span3" "action"
        "delete_user").find "action" "create_user" = ["span1"] ∧
    (((InvertedIndex.empty.addEntry "span1" "action" "create_user").addEntry
        "span2" "action" "create_account").addEntry "span3" "action"
        "delete_user").filterByAction none "create" true = ["span1", "span2"] := by
  refine ⟨?_, by decide, by decide⟩
  intro idx ids action x
  unfold InvertedIndex.filterByAction
  simp only [Bool.not_true, Bool.false_eq_true, if_false]
  cases hai : mapGet idx.indices "action" with
  | none =>
    simp [hai]
  | some ai =>
    simp only [hai, Option.getD_some]
    have hcore : ∀ y, y ∈ uniqueFirst (ai.foldl
        (fun acc p => if fuzzyActionMatch (strToLower action) (strToLower p.1)
          then acc ++ p.2 else acc) []) ↔
        ∃ q ∈ ai, (strIncludes (strToLower q.1) (strToLower action) ||
          strIncludes (strToLower action) (strToLower q.1) ||
          decide (levenshteinSimilarity (strToLower action) (strToLower q.1) >
            7/10)) = true ∧ y ∈ q.2 := by
      intro y
      rw [mem_uniqueFirst, mem_fuzzy_foldl]
      simp only [List.not_mem_nil, false_or]
      unfold fuzzyActionMatch
      rfl
    cases ids with
    | none =>
      simp only [List.mem_filter]
      rw [hcore]
      constructor
      · intro h
        exact ⟨h, by rintro seed ⟨⟩⟩
      · intro h
        exact h.1
    | some seed =>
      simp only [List.mem_filter]
      rw [hcore]
      constructor
      · rintro ⟨h1, h2⟩
        exact ⟨h1, by rintro s hs; cases hs; simpa using h2⟩
      · rintro ⟨h1, h2⟩
        exact ⟨h1, by simpa using h2 seed rfl⟩

/-! ## Claims C8 / C9 -/

/-- `find` after one `add`: the matching list gains the id at the end,
every other list is unchanged. -/
theorem find_addEntry (idx : InvertedIndex) (id f v f' v' : String) :
    (idx.addEntry id f v).find f' v' =
      if f = f' ∧ v = v' then idx.find f' v' ++ [id] else idx.find f' v' := by
  unfold InvertedIndex.addEntry InvertedIndex.find
  by_cases hf : f = f'
  · subst hf
    rw [mapGet_set_self]
    by_cases hv : v = v'
    · subst hv
      rw [if_pos ⟨rfl, rfl⟩]
      simp only [Option.some_bind]
      rw [mapGet_set_self]
      cases hfi : mapGet idx.indices f with
      | none => simp [mapGet]
      | some fi =>
        simp only [Option.getD_some]
        cases hl : mapGet fi v <;> simp [hl]
    · rw [if_neg (by tauto)]
      simp only [Option.some_bind]
      rw [mapGet_set_ne _ _ _ _ hv]
      cases hfi : mapGet idx.indices f <;> simp [mapGet]
  · rw [if_neg (by tauto), mapGet_set_ne _ _ _ _ hf]

/-- `find` over a whole `add` sequence: exactly the ids added under that
`(field, value)` pair, in call order. -/
theorem find_applyAdds_aux (ops : List (String × String × String))
    (idx : InvertedIndex) (f v : String) :
    (ops.foldl (fun idx o => idx.addEntry o.1 o.2.1 o.2.2) idx).find f v =
      idx.find f v ++
        (ops.filter fun o => o.2.1 = f && o.2.2 = v).map (fun o => o.1) := by
  induction ops generalizing idx with
  | nil => simp
  | cons o rest ih =>
    simp only [List.foldl_cons]
    rw [ih, find_addEntry]
    by_cases h : o.2.1 = f ∧ o.2.2 = v
    · rw [if_pos h, List.filter_cons_of_pos (by simp [h.1, h.2])]
      simp
    · rw [if_neg h, List.filter_cons_of_neg (by simpa using fun hf hv => h ⟨hf, hv⟩)]

/-- C8 (amended).  (i) The id list returned for a single `(field, value)`
pair lists the ids added for that pair in call order.  (ii) Whenever a
seed is intersected with a found list (`filterByAction`,
`filterByDomain`, `filterByTags`), the result preserves the order of the
**found** list — it is a subsequence of the unseeded result — regardless
of which operand is shorter. -/
theorem inverted_order_c8 :
    (∀ (ops : List (String × String × String)) (f v : String),
      (InvertedIndex.applyAdds ops).find f v =
        (ops.filter fun o => o.2.1 = f && o.2.2 = v).map (fun o => o.1)) ∧
    (∀ (idx : InvertedIndex) (seed : List String) (domain : String),
      (idx.filterByDomain (some seed) domain).Sublist
        (idx.filterByDomain none domain)) ∧
    (∀ (idx : InvertedIndex) (seed : List String) (action : String)
        (fuzzy : Bool),
      (idx.filterByAction (some seed) action fuzzy).Sublist
        (idx.filterByAction none action fuzzy)) ∧
    (∀ (idx : InvertedIndex) (seed : List String) (tags : List String),
      (idx.filterByTags (some seed) tags).Sublist
        (idx.filterByTags none tags)) := by
  refine ⟨?_, ?_, ?_, ?_⟩
  · intro ops f v
    unfold InvertedIndex.applyAdds
    rw [find_applyAdds_aux]
    simp [InvertedIndex.find, InvertedIndex.empty, mapGet]
  · intro idx seed domain
    unfold InvertedIndex.filterByDomain
    exact List.filter_sublist _
  · intro idx seed action fuzzy
    unfold InvertedIndex.filterByAction
    cases fuzzy with
    | false => exact List.filter_sublist _
    | true =>
      simp only [Bool.not_true, Bool.false_eq_true, if_false]
      cases mapGet idx.indices "action" with
      | none => exact List.Sublist.refl _
      | some ai => exact List.filter_sublist _
  · intro idx seed tags
    unfold InvertedIndex.filterByTags
    exact List.filter_sublist _

/-- C8 counterexample.  After adding `s1, s2, s3` under
`(domain, d)`, intersecting with the shorter seed `[s2, s1]` yields
`[s1, s2]`: the order of the stored (longer) list, not of the shorter
seed — the result is not even a subsequence of the seed. -/
theorem inverted_order_c8_counterexample :
    ((((InvertedIndex.empty.addEntry "s1" "domain" "d").addEntry
        "s2" "domain" "d").addEntry "s3" "domain" "d").filterByDomain
        (some ["s2", "s1"]) "d" = ["s1", "s2"]) ∧
    (["s2", "s1"] : List String).length <
      ((((InvertedIndex.empty.addEntry "s1" "domain" "d").addEntry
        "s2" "domain" "d").addEntry "s3" "domain" "d").find "domain" "d").length ∧
    ¬ (["s1", "s2"] : List String).Sublist ["s2", "s1"] := by
  refine ⟨by decide, by decide, by decide⟩

/-- C9.  `embed` is deterministic: equal inputs (strings or structured
values, with the structured case serialised first) and equal dimensions
produce identical vectors — the model is a pure function of its
arguments, mirroring the source, which consults no randomness, time or
ambient state. -/
theorem embed_deterministic_c9 :
    ∀ (x y : String ⊕ Json) (dims : ℕ), x = y →
      embedInput x dims = embedInput y dims := by
  intro x y dims h
  rw [h]

/-- C9 witness: two calls on the same concrete input agree. -/
theorem embed_deterministic_c9_witness :
    embedInput (.inl "Hello world") 4 = embedInput (.inl "Hello world") 4 :=
  embed_deterministic_c9 (.inl "Hello world") (.inl "Hello world") 4 rfl

/-! ## Generic map and list lemmas -/

theorem mapGet_eq_none_iff {κ ν : Type} [DecidableEq κ]
    (l : List (κ × ν)) (k : κ) : mapGet l k = none ↔ k ∉ mapKeys l := by
  induction l with
  | nil => simp [mapGet, mapKeys]
  | cons hd tl ih =>
    obtain ⟨k', v'⟩ := hd
    by_cases hk : k' = k
    · subst hk
      simp [mapGet, mapKeys]
    · simp [mapGet, mapKeys, hk, Ne.symm hk] at ih ⊢
      exact ih

theorem mapGet_of_mem_nodup {κ ν : Type} [DecidableEq κ]
    (l : List (κ × ν)) (k : κ) (v : ν) (hnd : (mapKeys l).Nodup)
    (hmem : (k, v) ∈ l) : mapGet l k = some v := by
  induction l with
  | nil => simp at hmem
  | cons hd tl ih =>
    obtain ⟨k', v'⟩ := hd
    simp only [mapKeys, List.map_cons, List.nodup_cons] at hnd
    rcases List.mem_cons.mp hmem with heq | hmem'
    · rw [Prod.mk.injEq] at heq
      obtain ⟨h1, h2⟩ := heq
      subst h1; subst h2
      simp [mapGet]
    · have hk : k' ≠ k := by
        intro h
        subst h
        exact hnd.1 (by simpa [mapKeys] using List.mem_map_of_mem Prod.fst hmem')
      simp only [mapGet, if_neg hk]
      exact ih hnd.2 hmem'

theorem getD_set_self {α : Type} (cs : List α) (i : ℕ) (x d : α)
    (h : i < cs.length) : (cs.set i x).getD i d = x := by
  simp [List.getD_eq_getElem?_getD, List.getElem?_set_self, h]

theorem getD_set_ne {α : Type} (cs : List α) (i j : ℕ) (x d : α)
    (h : i ≠ j) : (cs.set i x).getD j d = cs.getD j d := by
  simp [List.getD_eq_getElem?_getD, List.getElem?_set_ne h]

theorem mem_of_mem_take {α : Type} {l : List α} {n : ℕ} {x : α}
    (h : x ∈ l.take n) : x ∈ l :=
  (List.take_sublist n l).subset h

theorem mem_of_mem_dropLast {α : Type} {l : List α} {x : α}
    (h : x ∈ l.dropLast) : x ∈ l :=
  (List.dropLast_sublist l).subset h

/-! ## The `searchLayer` support lemmas -/

theorem searchLayerInit_subset (st : HNSWState) (q : List ℚ) :
    ∀ (eps : List String) (v : List String) (c r : List (String × ℚ))
      (v' : List String) (c' r' : List (String × ℚ)),
      st.searchLayerInit q eps (v, c, r) = some (v', c', r') →
      (∀ p ∈ c', p ∈ c ∨ p.1 ∈ eps) ∧ (∀ p ∈ r', p ∈ r ∨ p.1 ∈ eps) := by
  intro eps
  induction eps with
  | nil =>
    intro v c r v' c' r' h
    simp only [HNSWState.searchLayerInit, Option.some.injEq,
      Prod.mk.injEq] at h
    obtain ⟨_, h2, h3⟩ := h
    subst h2; subst h3
    exact ⟨fun p hp => .inl hp, fun p hp => .inl hp⟩
  | cons ep rest ih =>
    intro v c r v' c' r' h
    rw [HNSWState.searchLayerInit] at h
    cases hget : mapGet st.nodes ep with
    | none => rw [hget] at h; exact Option.noConfusion h
    | some node =>
      rw [hget] at h
      dsimp only at h
      cases hd : distOpt q node.vector with
      | none => rw [hd] at h; exact Option.noConfusion h
      | some d =>
        rw [hd] at h
        obtain ⟨ihc, ihr⟩ := ih _ _ _ _ _ _ h
        constructor
        · intro p hp
          rcases ihc p hp with hp' | hp'
          · rcases List.mem_append.mp hp' with hp'' | hp''
            · exact .inl hp''
            · simp only [List.mem_singleton] at hp''
              subst hp''
              exact .inr (by simp)
          · exact .inr (List.mem_cons_of_mem _ hp')
        · intro p hp
          rcases ihr p hp with hp' | hp'
          · rcases List.mem_append.mp hp' with hp'' | hp''
            · exact .inl hp''
            · simp only [List.mem_singleton] at hp''
              subst hp''
              exact .inr (by simp)
          · exact .inr (List.mem_cons_of_mem _ hp')

theorem searchLayerNeighbors_subset (st : HNSWState) (q : List ℚ)
    (ef : ℕ) :
    ∀ (nids : List String) (v : List String) (c r : List (String × ℚ))
      (v' : List String) (c' r' : List (String × ℚ)),
      st.searchLayerNeighbors q ef nids v c r = some (v', c', r') →
      (∀ p ∈ c', p ∈ c ∨ p.1 ∈ nids) ∧ (∀ p ∈ r', p ∈ r ∨ p.1 ∈ nids) := by
  intro nids
  induction nids with
  | nil =>
    intro v c r v' c' r' h
    simp only [HNSWState.searchLayerNeighbors, Option.some.injEq,
      Prod.mk.injEq] at h
    obtain ⟨_, h2, h3⟩ := h
    subst h2; subst h3
    exact ⟨fun p hp => .inl hp, fun p hp => .inl hp⟩
  | cons nid rest ih =>
    intro v c r v' c' r' h
    rw [HNSWState.searchLayerNeighbors] at h
    by_cases hvis : nid ∈ v
    · rw [if_pos hvis] at h
      obtain ⟨ihc, ihr⟩ := ih _ _ _ _ _ _ h
      exact ⟨fun p hp => (ihc p hp).imp (fun x => x)
          (fun x => List.mem_cons_of_mem _ x),
        fun p hp => (ihr p hp).imp (fun x => x)
          (fun x => List.mem_cons_of_mem _ x)⟩
    · rw [if_neg hvis] at h
      cases hget : mapGet st.nodes nid with
      | none => rw [hget] at h; exact Option.noConfusion h
      | some node =>
        rw [hget] at h
        dsimp only at h
        cases hd : distOpt q node.vector with
        | none => rw [hd] at h; exact Option.noConfusion h
        | some dist =>
          rw [hd] at h
          dsimp only at h
          split at h
          · obtain ⟨ihc, ihr⟩ := ih _ _ _ _ _ _ h
            constructor
            · intro p hp
              rcases ihc p hp with hp' | hp'
              · rw [mem_sortBy] at hp'
                rcases List.mem_append.mp hp' with hp'' | hp''
                · exact .inl hp''
                · simp only [List.mem_singleton] at hp''
                  subst hp''
                  exact .inr (by simp)
              · exact .inr (List.mem_cons_of_mem _ hp')
            · intro p hp
              rcases ihr p hp with hp' | hp'
              · have hp2 : p ∈ sortBy (fun a b => decide (a.2 ≤ b.2))
                    (r ++ [(nid, dist)]) := by
                  by_cases hlen : (sortBy (fun a b => decide (a.2 ≤ b.2))
                      (r ++ [(nid, dist)])).length > ef
                  · rw [if_pos hlen] at hp'
                    exact mem_of_mem_dropLast hp'
                  · rw [if_neg hlen] at hp'
                    exact hp'
                rw [mem_sortBy] at hp2
                rcases List.mem_append.mp hp2 with hp'' | hp''
                · exact .inl hp''
                · simp only [List.mem_singleton] at hp''
                  subst hp''
                  exact .inr (by simp)
              · exact .inr (List.mem_cons_of_mem _ hp')
          · obtain ⟨ihc, ihr⟩ := ih _ _ _ _ _ _ h
            exact ⟨fun p hp => (ihc p hp).imp (fun x => x)
                (fun x => List.mem_cons_of_mem _ x),
              fun p hp => (ihr p hp).imp (fun x => x)
                (fun x => List.mem_cons_of_mem _ x)⟩

theorem searchLayerLoop_subset (st : HNSWState) (q : List ℚ)
    (layer ef : ℕ) :
    ∀ (fuel : ℕ) (v : List String) (c r out : List (String × ℚ)),
      st.searchLayerLoop q layer ef fuel v c r = some out →
      ∀ p ∈ out, (p ∈ c ∨ p ∈ r) ∨ connIdsAt st layer p.1 := by
  intro fuel
  induction fuel with
  | zero => intro v c r out h; exact Option.noConfusion h
  | succ f ih =>
    intro v c r out h
    rw [HNSWState.searchLayerLoop.eq_def] at h
    cases c with
    | nil =>
      dsimp only at h
      simp only [Option.some.injEq] at h
      subst h
      exact fun p hp => .inl (.inr hp)
    | cons current rest =>
      dsimp only at h
      split at h
      · simp only [Option.some.injEq] at h
        subst h
        exact fun p hp => .inl (.inr hp)
      · cases hget : mapGet st.nodes current.1 with
        | none => rw [hget] at h; exact Option.noConfusion h
        | some node =>
          rw [hget] at h
          dsimp only at h
          cases hnb : st.searchLayerNeighbors q ef
              (node.conns.getD layer []) v rest r with
          | none => rw [hnb] at h; exact Option.noConfusion h
          | some acc =>
            obtain ⟨v', c', r'⟩ := acc
            rw [hnb] at h
            obtain ⟨hsc, hsr⟩ := searchLayerNeighbors_subset st q ef
              _ _ _ _ _ _ _ hnb
            intro p hp
            rcases ih _ _ _ _ h p hp with (hp' | hp') | hp'
            · rcases hsc p hp' with hp'' | hp''
              · exact .inl (.inl (List.mem_cons_of_mem _ hp''))
              · exact .inr ⟨current.1, node, hget, hp''⟩
            · rcases hsr p hp' with hp'' | hp''
              · exact .inl (.inr hp'')
              · exact .inr ⟨current.1, node, hget, hp''⟩
            · exact .inr hp'

theorem searchLayer_subset (st : HNSWState) (q : List ℚ)
    (eps : List String) (layer ef fuel : ℕ) (out : List String)
    (h : st.searchLayer q eps layer ef fuel = some out) :
    ∀ x ∈ out, x ∈ eps ∨ connIdsAt st layer x := by
  unfold HNSWState.searchLayer at h
  cases hinit : st.searchLayerInit q eps ([], [], []) with
  | none => rw [hinit] at h; exact Option.noConfusion h
  | some acc =>
    obtain ⟨v0, c0, r0⟩ := acc
    rw [hinit] at h
    dsimp only at h
    cases hloop : st.searchLayerLoop q layer ef fuel v0
        (sortBy (fun a b => decide (a.2 ≤ b.2)) c0)
        (sortBy (fun a b => decide (a.2 ≤ b.2)) r0) with
    | none => rw [hloop] at h; exact Option.noConfusion h
    | some outp =>
      rw [hloop] at h
      simp only [Option.some.injEq] at h
      subst h
      obtain ⟨hic, hir⟩ := searchLayerInit_subset st q _ _ _ _ _ _ _ hinit
      intro x hx
      rcases List.mem_map.mp hx with ⟨p, hp, hpx⟩
      subst hpx
      rcases searchLayerLoop_subset st q layer ef _ _ _ _ _ hloop p hp with
        (hp' | hp') | hp'
      · rw [mem_sortBy] at hp'
        rcases hic p hp' with hp'' | hp''
        · simp at hp''
        · exact .inl hp''
      · rw [mem_sortBy] at hp'
        rcases hir p hp' with hp'' | hp''
        · simp at hp''
        · exact .inl hp''
      · exact .inr hp'

/-! ## `selectNeighbors`, `pruneConnections` and `connectOne` lemmas -/

theorem mapM_fst {g : String → Option (String × ℚ)}
    (hg : ∀ cid p, g cid = some p → p.1 = cid) :
    ∀ (cands : List String) (pairs : List (String × ℚ)),
      cands.mapM g = some pairs → pairs.map (·.1) = cands := by
  intro cands
  induction cands with
  | nil =>
    intro pairs h
    simp only [List.mapM_nil, Option.pure_def, Option.some.injEq] at h
    subst h
    rfl
  | cons cid rest ih =>
    intro pairs h
    rw [List.mapM_cons] at h
    cases hc : g cid with
    | none => rw [hc] at h; exact Option.noConfusion h
    | some p =>
      rw [hc] at h
      cases hr : rest.mapM g with
      | none => rw [hr] at h; exact Option.noConfusion h
      | some ps =>
        rw [hr] at h
        have h2 : p :: ps = pairs := by
          have h3 : (some (p :: ps) : Option (List (String × ℚ))) =
            some pairs := h
          exact Option.some.inj h3
        subst h2
        simp only [List.map_cons, ih ps hr, hg cid p hc]

theorem selectNeighbors_spec (st : HNSWState) (v : List ℚ)
    (cands : List String) (M : ℕ) (out : List String)
    (h : st.selectNeighbors v cands M = some out) :
    (∀ x ∈ out, x ∈ cands) ∧ out.length ≤ max M cands.length := by
  unfold HNSWState.selectNeighbors at h
  split at h
  · rw [Option.some.injEq] at h
    subst h
    exact ⟨fun x hx => hx, le_max_of_le_right le_rfl⟩
  · rename_i hlen
    cases hm : cands.mapM (fun cid =>
        match mapGet st.nodes cid with
        | none => none
        | some node => (distOpt v node.vector).map fun d => (cid, d)) with
    | none => rw [hm] at h; exact Option.noConfusion h
    | some pairs =>
      rw [hm] at h
      rw [Option.some.injEq] at h
      subst h
      have hfst : pairs.map (·.1) = cands := by
        refine mapM_fst ?_ cands pairs hm
        intro cid p hp
        cases hg : mapGet st.nodes cid with
        | none => rw [hg] at hp; exact Option.noConfusion hp
        | some node =>
          rw [hg] at hp
          dsimp only at hp
          cases hd : distOpt v node.vector with
          | none => rw [hd] at hp; exact Option.noConfusion hp
          | some d =>
            rw [hd] at hp
            simp only [Option.map_some', Option.some.injEq] at hp
            rw [← hp]
      constructor
      · intro x hx
        rcases List.mem_map.mp hx with ⟨p, hp, hpx⟩
        have hpin : p ∈ pairs := (mem_sortBy _ _ _).mp (mem_of_mem_take hp)
        rw [← hfst]
        exact hpx ▸ List.mem_map_of_mem (·.1) hpin
      · calc (((sortBy (fun a b => decide (a.2 ≤ b.2)) pairs).take M).map
            (·.1)).length
            = ((sortBy (fun a b => decide (a.2 ≤ b.2)) pairs).take M).length :=
              List.length_map _ _
          _ ≤ M := List.length_take_le _ _
          _ ≤ max M cands.length := le_max_left _ _

theorem selectNeighbors_length (st : HNSWState) (v : List ℚ)
    (cands : List String) (M : ℕ) (out : List String)
    (h : st.selectNeighbors v cands M = some out) : out.length ≤ M := by
  unfold HNSWState.selectNeighbors at h
  split at h
  · rw [Option.some.injEq] at h
    subst h
    assumption
  · cases hm : cands.mapM (fun cid =>
        match mapGet st.nodes cid with
        | none => none
        | some node => (distOpt v node.vector).map fun d => (cid, d)) with
    | none => rw [hm] at h; exact Option.noConfusion h
    | some pairs =>
      rw [hm] at h
      rw [Option.some.injEq] at h
      subst h
      calc (((sortBy (fun a b => decide (a.2 ≤ b.2)) pairs).take M).map
          (·.1)).length
          = ((sortBy (fun a b => decide (a.2 ≤ b.2)) pairs).take M).length :=
            List.length_map _ _
        _ ≤ M := List.length_take_le _ _

theorem pruneConnections_spec (st : HNSWState) (node : HNSWNode)
    (layer M : ℕ) (out : List String)
    (h : st.pruneConnections node layer M = some out) :
    (∀ x ∈ out, x ∈ node.conns.getD layer []) ∧ out.length ≤ M := by
  unfold HNSWState.pruneConnections at h
  dsimp only at h
  split at h
  · rw [Option.some.injEq] at h
    subst h
    exact ⟨fun x hx => hx, by assumption⟩
  · cases hm : (node.conns.getD layer []).mapM (fun cid =>
        match mapGet st.nodes cid with
        | none => none
        | some neighbor =>
          (distOpt node.vector neighbor.vector).map fun d => (cid, d)) with
    | none => rw [hm] at h; exact Option.noConfusion h
    | some pairs =>
      rw [hm] at h
      rw [Option.some.injEq] at h
      subst h
      have hfst : pairs.map (·.1) = node.conns.getD layer [] := by
        refine mapM_fst ?_ _ pairs hm
        intro cid p hp
        cases hg : mapGet st.nodes cid with
        | none => rw [hg] at hp; exact Option.noConfusion hp
        | some neighbor =>
          rw [hg] at hp
          dsimp only at hp
          cases hd : distOpt node.vector neighbor.vector with
          | none => rw [hd] at hp; exact Option.noConfusion hp
          | some d =>
            rw [hd] at hp
            simp only [Option.map_some', Option.some.injEq] at hp
            rw [← hp]
      constructor
      · intro x hx
        rcases List.mem_map.mp hx with ⟨p, hp, hpx⟩
        have hpin : p ∈ pairs := (mem_sortBy _ _ _).mp (mem_of_mem_take hp)
        rw [← hfst]
        exact hpx ▸ List.mem_map_of_mem (·.1) hpin
      · calc (((sortBy (fun a b => decide (a.2 ≤ b.2)) pairs).take M).map
            (·.1)).length
            = ((sortBy (fun a b => decide (a.2 ≤ b.2)) pairs).take M).length :=
              List.length_map _ _
          _ ≤ M := List.length_take_le _ _

theorem mapSet_of_not_mem {κ ν : Type} [DecidableEq κ]
    (l : List (κ × ν)) (k : κ) (v : ν) (h : k ∉ mapKeys l) :
    mapSet l k v = l ++ [(k, v)] := by
  induction l with
  | nil => rfl
  | cons hd tl ih =>
    obtain ⟨k', v'⟩ := hd
    simp only [mapKeys, List.map_cons, List.mem_cons] at h
    push_neg at h
    simp only [mapSet, List.cons_append]
    rw [ih (by simpa [mapKeys] using h.2), if_neg (Ne.symm h.1)]

theorem getD_replicate_nil (n l : ℕ) :
    (List.replicate n ([] : List String)).getD l [] = [] := by
  by_cases h : l < n
  · rw [List.getD_eq_getElem?_getD]
    simp [List.getElem?_replicate, h]
  · rw [List.getD_eq_getElem?_getD, List.getElem?_eq_none (by simpa using not_lt.mp h)]
    rfl

theorem mapGet_some_mem {κ ν : Type} [DecidableEq κ] (l : List (κ × ν))
    (k : κ) (w : ν) (h : mapGet l k = some w) : k ∈ mapKeys l := by
  induction l with
  | nil => simp [mapGet] at h
  | cons hd tl ih =>
    obtain ⟨k', v'⟩ := hd
    by_cases hk : k' = k
    · subst hk
      simp [mapKeys]
    · simp only [mapGet, if_neg hk] at h
      simp [mapKeys] at ih ⊢
      exact .inr (ih h)

theorem mapKeys_set {κ ν : Type} [DecidableEq κ] (l : List (κ × ν))
    (k : κ) (v : ν) :
    mapKeys (mapSet l k v) =
      if k ∈ mapKeys l then mapKeys l else mapKeys l ++ [k] := by
  induction l with
  | nil => simp [mapSet, mapKeys]
  | cons hd tl ih =>
    obtain ⟨k', v'⟩ := hd
    by_cases hk : k' = k
    · subst hk
      simp [mapSet, mapKeys]
    · simp only [mapSet, if_neg hk, mapKeys, List.map_cons] at ih ⊢
      rw [ih]
      by_cases hmem : k ∈ mapKeys tl
      · simp [mapKeys] at hmem
        simp [mapKeys, hmem, Ne.symm hk]
      · simp [mapKeys] at hmem
        simp [mapKeys, hmem, Ne.symm hk]

theorem mapKeys_set_of_mem {κ ν : Type} [DecidableEq κ]
    (l : List (κ × ν)) (k : κ) (v : ν) (h : k ∈ mapKeys l) :
    mapKeys (mapSet l k v) = mapKeys l := by
  rw [mapKeys_set, if_pos h]

theorem nodup_mapKeys_set {κ ν : Type} [DecidableEq κ]
    (l : List (κ × ν)) (k : κ) (v : ν) (h : (mapKeys l).Nodup) :
    (mapKeys (mapSet l k v)).Nodup := by
  rw [mapKeys_set]
  by_cases hmem : k ∈ mapKeys l
  · rwa [if_pos hmem]
  · rw [if_neg hmem]
    exact h.append (List.nodup_singleton k)
      (by simpa [List.disjoint_singleton] using hmem)

/-- One bidirectional connection preserves the graph invariants: the new
node's layer-`lc` list grows by exactly one (staying within `Ml`), the
neighbour's list is pruned back below `Ml` whenever it overflows, and no
list at a layer below `lc` changes. -/
theorem connectOne_spec (st st' : HNSWState) (id nid : String)
    (lc Ml : ℕ) (hMl : Ml = layerCap st.config.M lc) (hne : nid ≠ id)
    (hcap : capInv st) (hclosed : closedInv st)
    (hfree : idFreeBelow st id lc)
    (nodeI : HNSWNode) (hnodeI : mapGet st.nodes id = some nodeI)
    (hjlt : (nodeI.conns.getD lc []).length + 1 ≤ Ml)
    (hsome : st.connectOne id lc Ml nid = some st') :
    capInv st' ∧ closedInv st' ∧ idFreeBelow st' id lc ∧
    (∃ nodeI', mapGet st'.nodes id = some nodeI' ∧
      (∀ l, l ≠ lc → nodeI'.conns.getD l [] = nodeI.conns.getD l []) ∧
      (nodeI'.conns.getD lc []).length =
        (nodeI.conns.getD lc []).length + 1) ∧
    mapKeys st'.nodes = mapKeys st.nodes ∧ st'.config = st.config ∧
    st'.entryPoint = st.entryPoint := by
  unfold HNSWState.connectOne at hsome
  rw [hnodeI] at hsome
  dsimp only at hsome
  split at hsome
  case isFalse => exact Option.noConfusion hsome
  case isTrue hlc =>
    rw [mapGet_set_ne st.nodes id nid _ (Ne.symm hne)] at hsome
    cases hgetN : mapGet st.nodes nid with
    | none => rw [hgetN] at hsome; exact Option.noConfusion hsome
    | some neighborNode =>
      rw [hgetN] at hsome
      dsimp only at hsome
      split at hsome
      case isFalse => exact Option.noConfusion hsome
      case isTrue hlc2 =>
        have hidmem : id ∈ mapKeys st.nodes := mapGet_some_mem _ _ _ hnodeI
        have hnidmem : nid ∈ mapKeys st.nodes := mapGet_some_mem _ _ _ hgetN
        set node1 : HNSWNode := { nodeI with
          conns := nodeI.conns.set lc (nodeI.conns.getD lc [] ++ [nid]) }
          with hnode1
        set nn1 : HNSWNode := { neighborNode with
          conns := neighborNode.conns.set lc
            (neighborNode.conns.getD lc [] ++ [id]) } with hnn1
        have n1_lc : node1.conns.getD lc [] =
            nodeI.conns.getD lc [] ++ [nid] := getD_set_self _ _ _ _ hlc
        have n1_ne : ∀ l, l ≠ lc →
            node1.conns.getD l [] = nodeI.conns.getD l [] := fun l hl =>
          getD_set_ne _ _ _ _ _ (Ne.symm hl)
        have nn1_lc : nn1.conns.getD lc [] =
            neighborNode.conns.getD lc [] ++ [id] :=
          getD_set_self _ _ _ _ hlc2
        have nn1_ne : ∀ l, l ≠ lc →
            nn1.conns.getD l [] = neighborNode.conns.getD l [] := fun l hl =>
          getD_set_ne _ _ _ _ _ (Ne.symm hl)
        have keysA : mapKeys (mapSet st.nodes id node1) = mapKeys st.nodes :=
          mapKeys_set_of_mem _ _ _ hidmem
        have keysB : mapKeys (mapSet (mapSet st.nodes id node1) nid nn1) =
            mapKeys st.nodes := by
          rw [mapKeys_set_of_mem _ _ _ (keysA ▸ hnidmem), keysA]
        have getB : ∀ k, mapGet (mapSet (mapSet st.nodes id node1) nid nn1) k =
            if k = nid then some nn1
            else if k = id then some node1
            else mapGet st.nodes k := by
          intro k
          by_cases hk1 : k = nid
          · subst hk1
            rw [if_pos rfl, mapGet_set_self]
          · rw [if_neg hk1, mapGet_set_ne _ _ _ _ (Ne.symm hk1)]
            by_cases hk2 : k = id
            · subst hk2
              rw [if_pos rfl, mapGet_set_self]
            · rw [if_neg hk2, mapGet_set_ne _ _ _ _ (Ne.symm hk2)]
        split at hsome
        case isTrue hover =>
          cases hpr : HNSWState.pruneConnections
              { st with nodes := mapSet (mapSet st.nodes id node1) nid nn1 }
              nn1 lc Ml with
          | none => rw [hpr] at hsome; exact Option.noConfusion hsome
          | some pruned =>
            rw [hpr] at hsome
            rw [Option.some.injEq] at hsome
            subst hsome
            obtain ⟨hprsub, hprlen⟩ := pruneConnections_spec _ _ _ _ _ hpr
            set nn2 : HNSWNode := { nn1 with
              conns := nn1.conns.set lc pruned } with hnn2
            have nn2_lc : nn2.conns.getD lc [] = pruned := by
              refine getD_set_self _ _ _ _ ?_
              simpa [hnn1] using hlc2
            have nn2_ne : ∀ l, l ≠ lc →
                nn2.conns.getD l [] = neighborNode.conns.getD l [] := by
              intro l hl
              rw [getD_set_ne _ _ _ _ _ (Ne.symm hl)]
              exact nn1_ne l hl
            have getC : ∀ k,
                mapGet (mapSet (mapSet (mapSet st.nodes id node1) nid nn1)
                  nid nn2) k =
                if k = nid then some nn2
                else if k = id then some node1
                else mapGet st.nodes k := by
              intro k
              by_cases hk1 : k = nid
              · subst hk1
                rw [if_pos rfl, mapGet_set_self]
              · rw [if_neg hk1, mapGet_set_ne _ _ _ _ (Ne.symm hk1), getB k,
                  if_neg hk1]
            have keysC : mapKeys (mapSet (mapSet (mapSet st.nodes id node1)
                nid nn1) nid nn2) = mapKeys st.nodes := by
              rw [mapKeys_set_of_mem _ _ _ (keysB ▸ hnidmem), keysB]
            refine ⟨?_, ?_, ?_, ?_, keysC, rfl, rfl⟩
            · intro k n hg l
              dsimp only at hg ⊢
              rw [getC] at hg
              split_ifs at hg with hk1 hk2
              · cases Option.some.inj hg
                by_cases hl : l = lc
                · subst hl
                  rw [nn2_lc, ← hMl]
                  exact hprlen
                · rw [nn2_ne l hl]
                  exact hcap nid neighborNode hgetN l
              · cases Option.some.inj hg
                by_cases hl : l = lc
                · subst hl
                  rw [n1_lc, ← hMl]
                  simpa using hjlt
                · rw [n1_ne l hl]
                  exact hcap id nodeI hnodeI l
              · exact hcap k n hg l
            · intro k n hg l x hx
              dsimp only at hg ⊢
              rw [keysC]
              rw [getC] at hg
              split_ifs at hg with hk1 hk2
              · cases Option.some.inj hg
                by_cases hl : l = lc
                · subst hl
                  rw [nn2_lc] at hx
                  have := hprsub x hx
                  rw [nn1_lc] at this
                  rcases List.mem_append.mp this with h | h
                  · exact hclosed nid neighborNode hgetN l x h
                  · simp only [List.mem_singleton] at h
                    subst h
                    exact hidmem
                · rw [nn2_ne l hl] at hx
                  exact hclosed nid neighborNode hgetN l x hx
              · cases Option.some.inj hg
                by_cases hl : l = lc
                · subst hl
                  rw [n1_lc] at hx
                  rcases List.mem_append.mp hx with h | h
                  · exact hclosed id nodeI hnodeI l x h
                  · simp only [List.mem_singleton] at h
                    subst h
                    exact hnidmem
                · rw [n1_ne l hl] at hx
                  exact hclosed id nodeI hnodeI l x hx
              · exact hclosed k n hg l x hx
            · intro k n hg l' hl'
              dsimp only at hg ⊢
              rw [getC] at hg
              split_ifs at hg with hk1 hk2
              · cases Option.some.inj hg
                rw [nn2_ne l' (by omega)]
                exact hfree nid neighborNode hgetN l' hl'
              · cases Option.some.inj hg
                rw [n1_ne l' (by omega)]
                exact hfree id nodeI hnodeI l' hl'
              · exact hfree k n hg l' hl'
            · refine ⟨node1, ?_, ?_, ?_⟩
              · dsimp only
                rw [getC, if_neg (Ne.symm hne), if_pos rfl]
              · exact n1_ne
              · rw [n1_lc]
                simp
        case isFalse hnover =>
          rw [Option.some.injEq] at hsome
          subst hsome
          refine ⟨?_, ?_, ?_, ?_, keysB, rfl, rfl⟩
          · intro k n hg l
            dsimp only at hg ⊢
            rw [getB] at hg
            split_ifs at hg with hk1 hk2
            · cases Option.some.inj hg
              by_cases hl : l = lc
              · subst hl
                rw [← hMl]
                push_neg at hnover
                exact hnover
              · rw [nn1_ne l hl]
                exact hcap nid neighborNode hgetN l
            · cases Option.some.inj hg
              by_cases hl : l = lc
              · subst hl
                rw [n1_lc, ← hMl]
                simpa using hjlt
              · rw [n1_ne l hl]
                exact hcap id nodeI hnodeI l
            · exact hcap k n hg l
          · intro k n hg l x hx
            dsimp only at hg ⊢
            rw [keysB]
            rw [getB] at hg
            split_ifs at hg with hk1 hk2
            · cases Option.some.inj hg
              by_cases hl : l = lc
              · subst hl
                rw [nn1_lc] at hx
                rcases List.mem_append.mp hx with h | h
                · exact hclosed nid neighborNode hgetN l x h
                · simp only [List.mem_singleton] at h
                  subst h
                  exact hidmem
              · rw [nn1_ne l hl] at hx
                exact hclosed nid neighborNode hgetN l x hx
            · cases Option.some.inj hg
              by_cases hl : l = lc
              · subst hl
                rw [n1_lc] at hx
                rcases List.mem_append.mp hx with h | h
                · exact hclosed id nodeI hnodeI l x h
                · simp only [List.mem_singleton] at h
                  subst h
                  exact hnidmem
              · rw [n1_ne l hl] at hx
                exact hclosed id nodeI hnodeI l x hx
            · exact hclosed k n hg l x hx
          · intro k n hg l' hl'
            dsimp only at hg ⊢
            rw [getB] at hg
            split_ifs at hg with hk1 hk2
            · cases Option.some.inj hg
              rw [nn1_ne l' (by omega)]
              exact hfree nid neighborNode hgetN l' hl'
            · cases Option.some.inj hg
              rw [n1_ne l' (by omega)]
              exact hfree id nodeI hnodeI l' hl'
            · exact hfree k n hg l' hl'
          · refine ⟨node1, ?_, ?_, ?_⟩
            · dsimp only
              rw [getB, if_neg (Ne.symm hne), if_pos rfl]
            · exact n1_ne
            · rw [n1_lc]
              simp

/-- The whole bidirectional-connection loop: folding `connectOne` over a
list of neighbours (none equal to the inserted id, and short enough to fit
the cap) preserves the graph invariants, and leaves every layer other than
`lc` of the inserted node's lists untouched. -/
theorem connectFold_spec (ns : List String) (st st' : HNSWState)
    (id : String) (lc Ml : ℕ)
    (hMl : Ml = layerCap st.config.M lc)
    (hne : ∀ n ∈ ns, n ≠ id)
    (hcap : capInv st) (hclosed : closedInv st)
    (hfree : idFreeBelow st id lc)
    (nodeI : HNSWNode) (hnodeI : mapGet st.nodes id = some nodeI)
    (hlen : (nodeI.conns.getD lc []).length + ns.length ≤ Ml)
    (hfold : ns.foldlM (fun s n => s.connectOne id lc Ml n) st = some st') :
    capInv st' ∧ closedInv st' ∧ idFreeBelow st' id lc ∧
    (∃ nodeI', mapGet st'.nodes id = some nodeI' ∧
      ∀ l, l ≠ lc → nodeI'.conns.getD l [] = nodeI.conns.getD l []) ∧
    mapKeys st'.nodes = mapKeys st.nodes ∧ st'.config = st.config ∧
    st'.entryPoint = st.entryPoint := by
  induction ns generalizing st nodeI with
  | nil =>
    rw [List.foldlM_nil] at hfold
    have hst : st = st' := Option.some.inj hfold
    subst hst
    exact ⟨hcap, hclosed, hfree, ⟨nodeI, hnodeI, fun _ _ => rfl⟩,
      rfl, rfl, rfl⟩
  | cons n ns ih =>
    rw [List.foldlM_cons] at hfold
    cases hc : st.connectOne id lc Ml n with
    | none =>
      rw [hc] at hfold
      exact Option.noConfusion hfold
    | some st1 =>
      rw [hc] at hfold
      simp only [Option.bind_eq_bind, Option.some_bind] at hfold
      obtain ⟨hcap1, hclosed1, hfree1, ⟨node1, hnode1, hoff1, hlen1⟩,
          hkeys1, hcfg1, hep1⟩ :=
        connectOne_spec st st1 id n lc Ml hMl (hne n (.head ns)) hcap
          hclosed hfree nodeI hnodeI
          (by simp only [List.length_cons] at hlen; omega) hc
      obtain ⟨hcap2, hclosed2, hfree2, ⟨node2, hnode2, hoff2⟩,
          hkeys2, hcfg2, hep2⟩ :=
        ih st1 (by rw [hcfg1]; exact hMl) (fun x hx => hne x (.tail n hx))
          hcap1 hclosed1 hfree1 node1 hnode1
          (by rw [hlen1]
              simp only [List.length_cons] at hlen
              omega) hfold
      refine ⟨hcap2, hclosed2, hfree2,
        ⟨node2, hnode2, fun l hl => (hoff2 l hl).trans (hoff1 l hl)⟩,
        hkeys2.trans hkeys1, hcfg2.trans hcfg1, hep2.trans hep1⟩

/-- `insertAtLayer` preserves the invariants: assuming the inserted node's
layer-`lc` list starts empty and `id` occurs in no list at a layer `≤ lc`,
the call keeps every degree within the cap, keeps neighbour lists closed,
never introduces `id` below `lc`, and returns candidates avoiding `id`. -/
theorem insertAtLayer_spec (st st' : HNSWState) (id : String)
    (vector : List ℚ) (nearest cands : List String) (lc fuel : ℕ)
    (hcap : capInv st) (hclosed : closedInv st)
    (hfree : idFreeBelow st id (lc + 1))
    (hidn : id ∉ nearest)
    (nodeI : HNSWNode) (hnodeI : mapGet st.nodes id = some nodeI)
    (hempty : nodeI.conns.getD lc [] = [])
    (hins : st.insertAtLayer id vector nearest lc fuel = some (st', cands)) :
    capInv st' ∧ closedInv st' ∧ idFreeBelow st' id lc ∧ id ∉ cands ∧
    (∃ nodeI', mapGet st'.nodes id = some nodeI' ∧
      ∀ l, l ≠ lc → nodeI'.conns.getD l [] = nodeI.conns.getD l []) ∧
    mapKeys st'.nodes = mapKeys st.nodes ∧ st'.config = st.config ∧
    st'.entryPoint = st.entryPoint := by
  unfold HNSWState.insertAtLayer at hins
  cases hsl : st.searchLayer vector nearest lc st.config.efConstruction
      fuel with
  | none => rw [hsl] at hins; exact Option.noConfusion hins
  | some candidates =>
    rw [hsl] at hins
    dsimp only at hins
    cases hsel : st.selectNeighbors vector candidates
        (if lc = 0 then st.config.M * 2 else st.config.M) with
    | none => rw [hsel] at hins; exact Option.noConfusion hins
    | some neighbors =>
      rw [hsel] at hins
      dsimp only at hins
      cases hfold : neighbors.foldlM
          (fun s n => s.connectOne id lc
            (if lc = 0 then st.config.M * 2 else st.config.M) n) st with
      | none => rw [hfold] at hins; exact Option.noConfusion hins
      | some st1 =>
        rw [hfold] at hins
        rw [Option.some.injEq, Prod.mk.injEq] at hins
        obtain ⟨hst, hcands⟩ := hins
        subst hst
        subst hcands
        have hMl : (if lc = 0 then st.config.M * 2 else st.config.M) =
            layerCap st.config.M lc := by
          unfold layerCap
          split <;> ring
        have hcsub := searchLayer_subset st vector nearest lc
          st.config.efConstruction fuel candidates hsl
        have hidc : id ∉ candidates := by
          intro hmem
          rcases hcsub id hmem with h | h
          · exact hidn h
          · obtain ⟨k, n, hk, hx⟩ := h
            exact hfree k n hk lc (Nat.lt_succ_self lc) hx
        have hnsub := (selectNeighbors_spec st vector candidates _ neighbors
          hsel).1
        have hnne : ∀ n ∈ neighbors, n ≠ id := by
          intro n hn he
          subst he
          exact hidc (hnsub n hn)
        have hnlen := selectNeighbors_length st vector candidates _
          neighbors hsel
        have hfree' : idFreeBelow st id lc := by
          intro k n hk l' hl'
          exact hfree k n hk l' (Nat.lt_succ_of_lt hl')
        obtain ⟨hcap1, hclosed1, hfree1, hnode1, hkeys1, hcfg1, hep1⟩ :=
          connectFold_spec neighbors st st1 id lc
            (if lc = 0 then st.config.M * 2 else st.config.M) hMl hnne hcap
            hclosed hfree' nodeI hnodeI (by rw [hempty]; simpa using hnlen)
            hfold
        exact ⟨hcap1, hclosed1, hfree1, hidc, hnode1, hkeys1, hcfg1, hep1⟩

/-- The descending layer list `[m+1, m, ..., 0]` decomposes as `m+1`
followed by `[m, ..., 0]`. -/
theorem rangeDesc_succ (m : ℕ) :
    (List.range (m + 2)).map (fun i => m + 1 - i) =
      (m + 1) :: (List.range (m + 1)).map (fun i => m - i) := by
  rw [List.range_succ_eq_map]
  simp [List.map_map, Function.comp, Nat.succ_sub_succ]

/-- The insertion loop over layers `m, m-1, ..., 0` preserves the degree
cap, closedness, the key list, the configuration, and the entry point,
provided the inserted node starts with empty lists at all those layers and
its id occurs in no neighbour list at them. -/
theorem insertLayers_inv (m : ℕ) : ∀ (st st' : HNSWState)
    (nearest out : List String) (id : String) (vector : List ℚ) (fuel : ℕ),
    capInv st → closedInv st → idFreeBelow st id (m + 1) → id ∉ nearest →
    ∀ nodeI, mapGet st.nodes id = some nodeI →
    (∀ l, l ≤ m → nodeI.conns.getD l [] = []) →
    ((List.range (m + 1)).map fun i => m - i).foldlM
      (fun (p : HNSWState × List String) lc =>
        p.1.insertAtLayer id vector p.2 lc fuel) (st, nearest) =
      some (st', out) →
    capInv st' ∧ closedInv st' ∧ mapKeys st'.nodes = mapKeys st.nodes ∧
    st'.config = st.config ∧ st'.entryPoint = st.entryPoint := by
  induction m with
  | zero =>
    intro st st' nearest out id vector fuel hcap hclosed hfree hidn nodeI
      hnodeI hempty hfold
    have hlist : ((List.range 1).map fun i => 0 - i) = [0] := rfl
    rw [hlist, List.foldlM_cons] at hfold
    cases hstep : st.insertAtLayer id vector nearest 0 fuel with
    | none => rw [hstep] at hfold; exact Option.noConfusion hfold
    | some p =>
      obtain ⟨st1, cands⟩ := p
      rw [hstep] at hfold
      have hp : (st1, cands) = (st', out) := Option.some.inj hfold
      rw [Prod.mk.injEq] at hp
      obtain ⟨h1, _⟩ := hp
      subst h1
      obtain ⟨hcap1, hclosed1, _, _, _, hkeys1, hcfg1, hep1⟩ :=
        insertAtLayer_spec st st1 id vector nearest cands 0 fuel hcap
          hclosed hfree hidn nodeI hnodeI (hempty 0 le_rfl) hstep
      exact ⟨hcap1, hclosed1, hkeys1, hcfg1, hep1⟩
  | succ m ih =>
    intro st st' nearest out id vector fuel hcap hclosed hfree hidn nodeI
      hnodeI hempty hfold
    rw [rangeDesc_succ m, List.foldlM_cons] at hfold
    cases hstep : st.insertAtLayer id vector nearest (m + 1) fuel with
    | none => rw [hstep] at hfold; exact Option.noConfusion hfold
    | some p =>
      obtain ⟨st1, cands⟩ := p
      rw [hstep] at hfold
      simp only [Option.bind_eq_bind, Option.some_bind] at hfold
      obtain ⟨hcap1, hclosed1, hfree1, hidc1, ⟨node1, hnode1, hoff1⟩,
          hkeys1, hcfg1, hep1⟩ :=
        insertAtLayer_spec st st1 id vector nearest cands (m + 1) fuel hcap
          hclosed hfree hidn nodeI hnodeI (hempty (m + 1) le_rfl) hstep
      obtain ⟨hcap2, hclosed2, hkeys2, hcfg2, hep2⟩ :=
        ih st1 st' cands out id vector fuel hcap1 hclosed1 hfree1 hidc1
          node1 hnode1
          (fun l hl => by
            rw [hoff1 l (by omega)]
            exact hempty l (by omega)) hfold
      exact ⟨hcap2, hclosed2, hkeys2.trans hkeys1, hcfg2.trans hcfg1,
        hep2.trans hep1⟩

/-- The greedy descent from the entry layer never introduces the freshly
inserted id into the running nearest list when that id occurs in no
neighbour list. -/
theorem descendFold_noId (layers : List ℕ) (st0 : HNSWState)
    (vector : List ℚ) (fuel : ℕ) (id : String)
    (hnc : ∀ layer, ¬ connIdsAt st0 layer id) :
    ∀ (start out : List String), id ∉ start →
    layers.foldlM
      (fun nearest lc => st0.searchLayer vector nearest lc 1 fuel) start =
      some out →
    id ∉ out := by
  induction layers with
  | nil =>
    intro start out hid hfold
    rw [List.foldlM_nil] at hfold
    have h : start = out := Option.some.inj hfold
    subst h
    exact hid
  | cons lc layers ih =>
    intro start out hid hfold
    rw [List.foldlM_cons] at hfold
    cases hstep : st0.searchLayer vector start lc 1 fuel with
    | none => rw [hstep] at hfold; exact Option.noConfusion hfold
    | some mid =>
      rw [hstep] at hfold
      simp only [Option.bind_eq_bind, Option.some_bind] at hfold
      have hmid : id ∉ mid := by
        intro hmem
        rcases searchLayer_subset st0 vector start lc 1 fuel mid hstep id
            hmem with h | h
        · exact hid h
        · exact hnc lc h
      exact ih mid out hmid hfold

/-- A successful `insert` of a fresh id preserves the degree cap,
closedness and the entry-point invariant, appends the new id to the key
list, and leaves the configuration unchanged. -/
theorem insert_spec (st st' : HNSWState) (id : String) (vector : List ℚ)
    (level : ℕ)
    (hcap : capInv st) (hclosed : closedInv st) (hentry : entryInv st)
    (hfresh : id ∉ mapKeys st.nodes)
    (hins : st.insert id vector level = some st') :
    capInv st' ∧ closedInv st' ∧ entryInv st' ∧
    mapKeys st'.nodes = mapKeys st.nodes ++ [id] ∧
    st'.config = st.config := by
  unfold HNSWState.insert at hins
  dsimp only at hins
  set node : HNSWNode :=
    { id := id, vector := vector, level := level,
      conns := List.replicate (level + 1) [] } with hnode
  have keys0 : mapKeys (mapSet st.nodes id node) =
      mapKeys st.nodes ++ [id] := by
    rw [mapSet_of_not_mem st.nodes id node hfresh]
    simp [mapKeys]
  have get0id : mapGet (mapSet st.nodes id node) id = some node :=
    mapGet_set_self _ _ _
  have get0 : ∀ k, k ≠ id →
      mapGet (mapSet st.nodes id node) k = mapGet st.nodes k := fun k hk =>
    mapGet_set_ne _ _ _ _ (Ne.symm hk)
  have nodeempty : ∀ l, node.conns.getD l [] = [] := fun l =>
    getD_replicate_nil _ _
  have cap0 : ∀ k n, mapGet (mapSet st.nodes id node) k = some n →
      ∀ l, (n.conns.getD l []).length ≤ layerCap st.config.M l := by
    intro k n hg l
    by_cases hk : k = id
    · subst hk
      rw [get0id] at hg
      have hn := Option.some.inj hg
      subst hn
      rw [nodeempty l]
      exact Nat.zero_le _
    · rw [get0 k hk] at hg
      exact hcap k n hg l
  have closed0 : ∀ k n, mapGet (mapSet st.nodes id node) k = some n →
      ∀ l, ∀ x ∈ n.conns.getD l [],
        x ∈ mapKeys (mapSet st.nodes id node) := by
    intro k n hg l x hx
    by_cases hk : k = id
    · subst hk
      rw [get0id] at hg
      have hn := Option.some.inj hg
      subst hn
      rw [nodeempty l] at hx
      exact absurd hx (List.not_mem_nil x)
    · rw [get0 k hk] at hg
      rw [keys0]
      exact List.mem_append_left _ (hclosed k n hg l x hx)
  have free0 : ∀ k n, mapGet (mapSet st.nodes id node) k = some n →
      ∀ l', id ∉ n.conns.getD l' [] := by
    intro k n hg l' hx
    by_cases hk : k = id
    · subst hk
      rw [get0id] at hg
      have hn := Option.some.inj hg
      subst hn
      rw [nodeempty l'] at hx
      simp at hx
    · rw [get0 k hk] at hg
      exact hfresh (hclosed k n hg l' id hx)
  cases hep : st.entryPoint with
  | none =>
    rw [hep] at hins
    have hst : _ = st' := Option.some.inj hins
    subst hst
    refine ⟨fun k n hg l => cap0 k n hg l,
      fun k n hg l x hx => closed0 k n hg l x hx, ?_, keys0, rfl⟩
    intro e he
    cases Option.some.inj he
    rw [keys0]
    exact List.mem_append_right _ (List.mem_singleton_self id)
  | some ep =>
    rw [hep] at hins
    dsimp only at hins
    have hepk : ep ∈ mapKeys st.nodes := hentry ep hep
    have hepne : ep ≠ id := fun h => hfresh (h ▸ hepk)
    rw [get0 ep hepne] at hins
    cases hge : mapGet st.nodes ep with
    | none => rw [hge] at hins; exact Option.noConfusion hins
    | some entryNode =>
      rw [hge] at hins
      dsimp only at hins
      split at hins
      · exact Option.noConfusion hins
      · rename_i nearest0 hdesc
        split at hins
        · exact Option.noConfusion hins
        · rename_i st1 rest hifold
          have hnear0 : id ∉ nearest0 := by
            refine descendFold_noId _ _ vector _ id ?_ [ep] nearest0 ?_
              hdesc
            · intro layer hc
              obtain ⟨k, n, hk, hx⟩ := hc
              exact free0 k n hk layer hx
            · simp only [List.mem_singleton]
              exact fun h => hepne h.symm
          obtain ⟨hcap1, hclosed1, hkeys1, hcfg1, hep1⟩ :=
            insertLayers_inv level
              { config := st.config, nodes := mapSet st.nodes id node,
                entryPoint := some ep } st1 nearest0 rest id vector _
              (fun k n hg l => cap0 k n hg l)
              (fun k n hg l x hx => closed0 k n hg l x hx)
              (fun k n hg l' _ => free0 k n hg l')
              hnear0 node get0id (fun l _ => nodeempty l) hifold
          have hkeys1' : mapKeys st1.nodes = mapKeys st.nodes ++ [id] :=
            hkeys1.trans keys0
          have hst : _ = st' := Option.some.inj hins
          subst hst
          split
          · refine ⟨fun k n hg l => hcap1 k n hg l,
              fun k n hg l x hx => hclosed1 k n hg l x hx, ?_, hkeys1',
              hcfg1⟩
            intro e he
            cases Option.some.inj he
            rw [hkeys1']
            exact List.mem_append_right _ (List.mem_singleton_self id)
          · refine ⟨hcap1, hclosed1, ?_, hkeys1', hcfg1⟩
            intro e he
            rw [hep1] at he
            cases Option.some.inj he
            rw [hkeys1']
            exact List.mem_append_left _ hepk

/-- Folding `insert` over a list of pairwise-distinct fresh ids preserves
the invariants and appends exactly those ids to the key list. -/
theorem applyInserts_fold_inv (ops : List (String × List ℚ × ℕ)) :
    ∀ (st st' : HNSWState), capInv st → closedInv st → entryInv st →
    (∀ op ∈ ops, op.1 ∉ mapKeys st.nodes) → (ops.map (·.1)).Nodup →
    ops.foldlM (fun s op => s.insert op.1 op.2.1 op.2.2) st = some st' →
    capInv st' ∧ closedInv st' ∧ entryInv st' ∧ st'.config = st.config ∧
    mapKeys st'.nodes = mapKeys st.nodes ++ ops.map (·.1) := by
  induction ops with
  | nil =>
    intro st st' hcap hclosed hentry _ _ hfold
    rw [List.foldlM_nil] at hfold
    have h : st = st' := Option.some.inj hfold
    subst h
    exact ⟨hcap, hclosed, hentry, rfl, by simp⟩
  | cons op ops ih =>
    intro st st' hcap hclosed hentry hfresh hnodup hfold
    rw [List.foldlM_cons] at hfold
    cases hstep : st.insert op.1 op.2.1 op.2.2 with
    | none => rw [hstep] at hfold; exact Option.noConfusion hfold
    | some st1 =>
      rw [hstep] at hfold
      simp only [Option.bind_eq_bind, Option.some_bind] at hfold
      obtain ⟨hcap1, hclosed1, hentry1, hkeys1, hcfg1⟩ :=
        insert_spec st st1 op.1 op.2.1 op.2.2 hcap hclosed hentry
          (hfresh op (.head ops)) hstep
      rw [List.map_cons, List.nodup_cons] at hnodup
      have hfresh1 : ∀ o ∈ ops, o.1 ∉ mapKeys st1.nodes := by
        intro o ho
        rw [hkeys1]
        intro hmem
        rcases List.mem_append.mp hmem with h | h
        · exact hfresh o (.tail op ho) h
        · simp only [List.mem_singleton] at h
          exact hnodup.1 (h ▸ List.mem_map_of_mem (·.1) ho)
      obtain ⟨hcap2, hclosed2, hentry2, hcfg2, hkeys2⟩ :=
        ih st1 st' hcap1 hclosed1 hentry1 hfresh1 hnodup.2 hfold
      refine ⟨hcap2, hclosed2, hentry2, hcfg2.trans hcfg1, ?_⟩
      rw [hkeys2, hkeys1, List.map_cons]
      simp

/-! ## Claim C5: IVF cluster-index invariants -/


theorem join_count_set (cl : List (ℕ × List String)) (ci : ℕ)
    (lst : List String) (id x : String) (h : mapGet cl ci = some lst) :
    ((mapSet cl ci (lst ++ [id])).map (·.2)).flatten.count x =
      ((cl.map (·.2)).flatten).count x + [id].count x := by
  induction cl with
  | nil => simp [mapGet] at h
  | cons hd tl ih =>
    obtain ⟨k', v'⟩ := hd
    by_cases hk : k' = ci
    · subst hk
      have hv : v' = lst := by simpa [mapGet] using h
      subst hv
      by_cases hid : id = x <;>
        simp [mapSet, List.count_append, List.count_cons, hid] <;> omega
    · simp only [mapGet, if_neg hk] at h
      simp only [mapSet, if_neg hk, List.map_cons, List.flatten_cons,
        List.count_append, ih h]
      ring

theorem join_length_set (cl : List (ℕ × List String)) (ci : ℕ)
    (lst : List String) (id : String) (h : mapGet cl ci = some lst) :
    ((mapSet cl ci (lst ++ [id])).map (·.2)).flatten.length =
      ((cl.map (·.2)).flatten).length + 1 := by
  induction cl with
  | nil => simp [mapGet] at h
  | cons hd tl ih =>
    obtain ⟨k', v'⟩ := hd
    by_cases hk : k' = ci
    · subst hk
      have hv : v' = lst := by simpa [mapGet] using h
      subst hv
      simp [mapSet]
      ring
    · simp only [mapGet, if_neg hk] at h
      simp only [mapSet, if_neg hk, List.map_cons, List.flatten_cons,
        List.length_append, ih h]
      ring

/-- The posting-partition fold of `build`: it keeps the cluster keys,
adds every processed id exactly once to the joined postings, and grows
the joined postings by one per vector. -/
theorem buildFold_spec (cs : List (List ℚ)) :
    ∀ (vecs : List (String × List ℚ)) (cl cl' : List (ℕ × List String)),
      vecs.foldlM
        (fun cl p =>
          let ci := findNearestCentroidFrom p.2 cs
          match mapGet cl ci with
          | none => none
          | some lst => some (mapSet cl ci (lst ++ [p.1])))
        cl = some cl' →
      mapKeys cl' = mapKeys cl ∧
      (∀ x, ((cl'.map (·.2)).flatten).count x =
        ((cl.map (·.2)).flatten).count x + (vecs.map (·.1)).count x) ∧
      ((cl'.map (·.2)).flatten).length =
        ((cl.map (·.2)).flatten).length + vecs.length := by
  intro vecs
  induction vecs with
  | nil =>
    intro cl cl' h
    simp only [List.foldlM_nil, Option.pure_def, Option.some.injEq] at h
    subst h
    simp
  | cons p rest ih =>
    intro cl cl' h
    rw [List.foldlM_cons] at h
    dsimp only at h
    cases hget : mapGet cl (findNearestCentroidFrom p.2 cs) with
    | none =>
      rw [hget] at h
      simp at h
    | some lst =>
      rw [hget] at h
      simp only [Option.some_bind] at h
      obtain ⟨hkeys, hcount, hlen⟩ := ih _ _ h
      refine ⟨?_, ?_, ?_⟩
      · rw [hkeys]
        exact mapKeys_set_of_mem _ _ _ (mapGet_some_mem _ _ _ hget)
      · intro x
        rw [hcount x, join_count_set _ _ _ _ _ hget]
        simp only [List.map_cons, List.count_cons]
        by_cases hx : p.1 = x <;> simp [hx] <;> ring
      · rw [hlen, join_length_set _ _ _ _ hget]
        simp only [List.length_cons]
        ring

theorem initPPLoop_length (vectors : List (List ℚ)) :
    ∀ (i : ℕ) (rands : List ℚ) (acc out : List (List ℚ)),
      initPPLoop vectors i rands acc = some out →
      out.length = acc.length + i := by
  intro i
  induction i with
  | zero =>
    intro rands acc out h
    simp only [initPPLoop, Option.some.injEq] at h
    subst h
    simp
  | succ j ih =>
    intro rands acc out h
    cases rands with
    | nil =>
      simp only [initPPLoop] at h
      exact Option.noConfusion h
    | cons r rest =>
      simp only [initPPLoop] at h
      cases hpick : pickByWeight (vectors.zip (vectors.map fun v =>
          let nd := nearestDistTo v acc
          nd * nd)) (r * (vectors.map fun v =>
          let nd := nearestDistTo v acc
          nd * nd).foldl (· + ·) 0) with
      | none => rw [hpick] at h; exact Option.noConfusion h
      | some c =>
        rw [hpick] at h
        have := ih rest (acc ++ [c]) out h
        simp only [List.length_append, List.length_singleton] at this
        omega

theorem lloydStep_length (vectors : List (List ℚ)) (k : ℕ)
    (cs : List (List ℚ)) : (lloydStep vectors k cs).length = k := by
  simp [lloydStep]

theorem lloydLoop_length (vectors : List (List ℚ)) (k : ℕ) :
    ∀ (fuel : ℕ) (cs : List (List ℚ)), cs.length = k →
      (lloydLoop vectors k fuel cs).length = k := by
  intro fuel
  induction fuel with
  | zero =>
    intro cs h
    rw [lloydLoop]
    exact h
  | succ f ih =>
    intro cs h
    rw [lloydLoop]
    split
    · exact lloydStep_length vectors k cs
    · exact ih _ (lloydStep_length vectors k cs)

theorem kMeans_length (vectors : List (List ℚ)) (k maxIter : ℕ)
    (rands : List ℚ) (cs : List (List ℚ))
    (h : kMeans vectors k maxIter rands = some cs)
    (hk1 : 1 ≤ k) (hk2 : k ≤ vectors.length) : cs.length = k := by
  unfold kMeans at h
  split at h
  · rename_i hge
    rw [Option.some.injEq] at h
    subst h
    omega
  · cases hinit : initCentroidsPP vectors k rands with
    | none => rw [hinit] at h; exact Option.noConfusion h
    | some cs0 =>
      rw [hinit] at h
      simp only [Option.map_some', Option.some.injEq] at h
      subst h
      have hcs0 : cs0.length = k := by
        unfold initCentroidsPP at hinit
        cases rands with
        | nil => exact Option.noConfusion hinit
        | cons r0 rrest =>
          simp only at hinit
          cases hget : vectors.get?
              (Int.floor (r0 * (vectors.length : ℚ))).toNat with
          | none => rw [hget] at hinit; exact Option.noConfusion hinit
          | some c0 =>
            rw [hget] at hinit
            have := initPPLoop_length vectors (k - 1) rrest [c0] cs0 hinit
            simp only [List.length_singleton] at this
            omega
      exact lloydLoop_length vectors k maxIter cs0 hcs0

/-- A single `add` or `build` step preserves the invariant. -/
theorem ivfStep_inv (st st' : IVFState) (op : IVFOp)
    (hinv : IVFInv st)
    (hstep : (match op with
      | .add id v => some (st.add id v)
      | .build rands => st.build rands) = some st') : IVFInv st' := by
  have hnodup := hinv.1
  cases op with
  | add id v =>
    simp only [Option.some.injEq] at hstep
    subst hstep
    exact ⟨nodup_mapKeys_set _ _ _ hnodup, by simp [IVFState.add]⟩
  | build rands =>
    unfold IVFState.build at hstep
    dsimp only at hstep
    split at hstep
    · rw [Option.some.injEq] at hstep
      subst hstep
      exact hinv
    · rename_i hlen0
      cases hkm : kMeans (st.vectors.map (·.2))
          (min st.config.nClusters (st.vectors.map (·.2)).length)
          st.config.maxIter rands with
      | none => rw [hkm] at hstep; exact Option.noConfusion hstep
      | some cs =>
        rw [hkm] at hstep
        dsimp only at hstep
        cases hfold : st.vectors.foldlM
            (fun cl p =>
              let ci := findNearestCentroidFrom p.2 cs
              match mapGet cl ci with
              | none => none
              | some lst => some (mapSet cl ci (lst ++ [p.1])))
            ((List.range (min st.config.nClusters
              (st.vectors.map (·.2)).length)).map
                fun i => (i, ([] : List String))) with
        | none => rw [hfold] at hstep; exact Option.noConfusion hstep
        | some clusters =>
          rw [hfold] at hstep
          rw [Option.some.injEq] at hstep
          subst hstep
          obtain ⟨hkeys, hcount, hjlen⟩ := buildFold_spec cs _ _ _ hfold
          have hk1 : 1 ≤ min st.config.nClusters
              (st.vectors.map (·.2)).length := by
            by_contra hk0
            have hk0' : min st.config.nClusters
                (st.vectors.map (·.2)).length = 0 := by omega
            rw [hk0'] at hfold
            cases hv : st.vectors with
            | nil => simp [hv] at hlen0
            | cons p rest =>
              rw [hv] at hfold
              simp [List.foldlM_cons, mapGet] at hfold
          refine ⟨hnodup, fun _ => ⟨?_, ?_, ?_⟩⟩
          · intro id hid
            have hc := hcount id
            have hkeys0 : ((((List.range (min st.config.nClusters
                (st.vectors.map (·.2)).length)).map
                  fun i => (i, ([] : List String))).map (·.2)).flatten) =
                ([] : List String) := by
              simp [List.flatten_eq_nil_iff]
            rw [hkeys0] at hc
            simp only [List.count_nil, Nat.zero_add] at hc
            rw [hc]
            have h1 : (st.vectors.map (·.1)).count id = 1 := by
              have hle := List.nodup_iff_count_le_one.mp hnodup id
              have heq : mapKeys st.vectors = st.vectors.map (·.1) := rfl
              rw [heq] at hle hid
              have hpos : 0 < (st.vectors.map (·.1)).count id :=
                List.count_pos_iff.mpr hid
              omega
            exact h1
          · have hkeys0 : ((((List.range (min st.config.nClusters
                (st.vectors.map (·.2)).length)).map
                  fun i => (i, ([] : List String))).map (·.2)).flatten) =
                ([] : List String) := by
              simp [List.flatten_eq_nil_iff]
            rw [hkeys0] at hjlen
            simp only [List.length_nil, Nat.zero_add] at hjlen
            have hsum : (clusters.map fun p => p.2.length).sum =
                ((clusters.map (·.2)).flatten).length := by
              rw [List.length_flatten, List.map_map]
              rfl
            rw [hsum, hjlen]
            rfl
          · have hcs : cs.length = min st.config.nClusters
                (st.vectors.map (·.2)).length :=
              kMeans_length _ _ _ _ _ hkm hk1
                (by simp)
            have hcl : clusters.length = (List.range (min st.config.nClusters
                (st.vectors.map (·.2)).length)).length := by
              have := congrArg List.length hkeys
              simpa [mapKeys] using this
            simp only [List.length_range] at hcl
            simp only [hcs, hcl]

/-- C5.  In every state of the cluster index reachable by `add` and
`build` calls in which the `built` flag is set: every id in the vector
map appears in exactly one posting list, the posting-list lengths sum to
`size()`, and the number of centroids equals the number of posting
keys. -/
theorem ivfFold_inv (ops : List IVFOp) :
    ∀ (st0 st : IVFState), IVFInv st0 →
      ops.foldlM
        (fun st op =>
          match op with
          | .add id v => some (st.add id v)
          | .build rands => st.build rands) st0 = some st →
      IVFInv st := by
  induction ops with
  | nil =>
    intro st0 st h0 happly
    simp only [List.foldlM_nil, Option.pure_def, Option.some.injEq] at happly
    subst happly
    exact h0
  | cons op rest ih =>
    intro st0 st h0 happly
    rw [List.foldlM_cons] at happly
    cases hstep : (match op with
      | .add id v => some (st0.add id v)
      | .build rands => st0.build rands) with
    | none => rw [hstep] at happly; exact Option.noConfusion happly
    | some st1 =>
      rw [hstep] at happly
      exact ih st1 st (ivfStep_inv st0 st1 op h0 hstep) happly

/-- C5.  In every state of the cluster index reachable by `add` and
`build` calls in which the `built` flag is set: every id in the vector
map appears in exactly one posting list, the posting-list lengths sum to
`size()`, and the number of centroids equals the number of posting
keys. -/
theorem ivf_invariants_c5 (cfg : IVFConfig) (ops : List IVFOp)
    (st : IVFState) (happly : applyIVFOps cfg ops = some st)
    (hbuilt : st.built = true) :
    (∀ id ∈ mapKeys st.vectors,
      ((st.clusters.map (·.2)).flatten).count id = 1) ∧
    ((st.clusters.map fun p => p.2.length).sum = st.size) ∧
    st.centroids.length = st.clusters.length := by
  have hstart : IVFInv (IVFState.init cfg) := by
    constructor
    · simp [IVFState.init, mapKeys]
    · simp [IVFState.init]
  exact (ivfFold_inv ops (IVFState.init cfg) st hstart happly).2 hbuilt

/-- C5 witness: a concrete `add, add, build` run reaching a built state
on which the invariants evaluate. -/
theorem ivf_invariants_c5_witness :
    ∃ st, applyIVFOps ⟨100, 10, 20⟩
        [.add "a" [1], .add "b" [2], .build []] = some st ∧
      st.built = true ∧
      ((∀ id ∈ mapKeys st.vectors,
        ((st.clusters.map (·.2)).flatten).count id = 1) ∧
       ((st.clusters.map fun p => p.2.length).sum = st.size) ∧
       st.centroids.length = st.clusters.length) :=
  ⟨{ config := ⟨100, 10, 20⟩, centroids := [[1], [2]],
     clusters := [(0, ["a"]), (1, ["b"])],
     vectors := [("a", [1]), ("b", [2])], built := true },
   by decide, rfl,
   ivf_invariants_c5 ⟨100, 10, 20⟩ [.add "a" [1], .add "b" [2], .build []] _
     (by decide) rfl⟩

/-- C1 (amended): after any finite sequence of `insert` calls with
pairwise-distinct ids completes, no node's layer-`l` neighbour list is
longer than the layer cap (`2M` at layer 0, `M` above). -/
theorem hnsw_degree_cap_c1 (cfg : HNSWConfig)
    (ops : List (String × List ℚ × ℕ)) (st : HNSWState)
    (hnodup : (ops.map (·.1)).Nodup)
    (happly : applyInserts cfg ops = some st) :
    ∀ p ∈ st.nodes, ∀ l,
      (p.2.conns.getD l []).length ≤ layerCap cfg.M l := by
  unfold applyInserts at happly
  obtain ⟨hcap, _, _, hcfg, hkeys⟩ :=
    applyInserts_fold_inv ops (HNSWState.init cfg) st
      (fun k n hg => absurd hg (by simp [HNSWState.init, mapGet]))
      (fun k n hg => absurd hg (by simp [HNSWState.init, mapGet]))
      (fun e he => absurd he (by simp [HNSWState.init]))
      (fun op _ => by simp [HNSWState.init, mapKeys])
      hnodup happly
  have hnd : (mapKeys st.nodes).Nodup := by
    rw [hkeys]
    simpa [HNSWState.init, mapKeys] using hnodup
  intro p hp l
  have hget : mapGet st.nodes p.1 = some p.2 :=
    mapGet_of_mem_nodup st.nodes p.1 p.2 hnd hp
  have h2 := hcap p.1 p.2 hget l
  rw [hcfg] at h2
  exact h2

/-- C1 witness: a concrete two-insert run with distinct ids on which the
degree bound of the theorem evaluates. -/
theorem hnsw_degree_cap_c1_witness :
    ∃ st, applyInserts ⟨1, 200, 50⟩ [("a", [5, 0], 0), ("b", [4, 3], 0)] =
        some st ∧
      ∀ p ∈ st.nodes, ∀ l, (p.2.conns.getD l []).length ≤ layerCap 1 l := by
  cases happly : applyInserts ⟨1, 200, 50⟩
      [("a", [5, 0], 0), ("b", [4, 3], 0)] with
  | none =>
    have hs : (applyInserts ⟨1, 200, 50⟩
        [("a", [5, 0], 0), ("b", [4, 3], 0)]).isSome = true := by decide
    rw [happly] at hs
    simp at hs
  | some st =>
    exact ⟨st, rfl,
      hnsw_degree_cap_c1 ⟨1, 200, 50⟩ _ st (by decide) happly⟩

/-- C1 counterexample: with `M = 1` and ids `a, b, c, d` inserted at
level 0, pruning leaves `c` in `a`'s layer-0 list while `a` is absent
from `c`'s (bidirectionality fails); and re-inserting a duplicate id `b`
drives `b`'s layer-0 list beyond the cap `layerCap 1 0 = 2` (so the
degree bound needs the distinct-ids hypothesis). -/
theorem hnsw_degree_cap_c1_counterexample :
    (((applyInserts ⟨1, 200, 50⟩
        [("a", [5, 0], 0), ("b", [4, 3], 0), ("c", [3, 4], 0),
         ("d", [0, 5], 0)]).bind fun st =>
      (mapGet st.nodes "a").map fun n =>
        decide ("c" ∈ n.conns.getD 0 [])) = some true) ∧
    (((applyInserts ⟨1, 200, 50⟩
        [("a", [5, 0], 0), ("b", [4, 3], 0), ("c", [3, 4], 0),
         ("d", [0, 5], 0)]).bind fun st =>
      (mapGet st.nodes "c").map fun n =>
        decide ("a" ∈ n.conns.getD 0 [])) = some false) ∧
    (((applyInserts ⟨1, 200, 50⟩
        [("a", [5, 0], 0), ("b", [4, 3], 0), ("b", [4, 3], 0)]).bind
        fun st =>
      (mapGet st.nodes "b").map fun n =>
        decide (layerCap 1 0 < (n.conns.getD 0 []).length)) = some true) :=
  ⟨by decide, by decide, by decide⟩

/-- The scores of the collected evidence are exactly the surviving
candidates' scores, in candidate order (accumulator-generalised form). -/
theorem collectEvidence_aux (st : MatcherState) (qe : List ℚ)
    (ids : List String) : ∀ (acc evs : List Evidence),
    ids.foldlM
      (fun (acc : List Evidence) id =>
        match mapGet st.spans id with
        | none => some acc
        | some span =>
          let spanText := spanToText span
          let spanEmbedding := embed spanText st.config.embeddingDim
          match cosineSimilarity qe spanEmbedding with
          | .error _ => none
          | .ok score =>
            if score < st.config.minScore then some acc
            else some (acc ++ [⟨span.id, score,
              firstTruthy span.if_ok (firstTruthy span.if_not spanText),
              evidenceMeta span⟩])) acc = some evs →
    evs.map (·.score) =
      acc.map (·.score) ++ ids.filterMap (surviveScore st qe) := by
  induction ids with
  | nil =>
    intro acc evs h
    rw [List.foldlM_nil] at h
    have hacc := Option.some.inj h
    subst hacc
    simp
  | cons id ids ih =>
    intro acc evs h
    rw [List.foldlM_cons] at h
    cases hg : mapGet st.spans id with
    | none =>
      rw [hg] at h
      simp only [Option.bind_eq_bind, Option.some_bind] at h
      rw [ih acc evs h]
      simp [surviveScore, hg]
    | some span =>
      rw [hg] at h
      dsimp only at h
      cases hc : cosineSimilarity qe
          (embed (spanToText span) st.config.embeddingDim) with
      | error e =>
        rw [hc] at h
        simp at h
      | ok score =>
        rw [hc] at h
        dsimp only at h
        by_cases hs : score < st.config.minScore
        · rw [if_pos hs] at h
          simp only [Option.bind_eq_bind, Option.some_bind] at h
          rw [ih acc evs h]
          simp [surviveScore, hg, hc, if_pos hs]
        · rw [if_neg hs] at h
          simp only [Option.bind_eq_bind, Option.some_bind] at h
          rw [ih _ evs h]
          simp [surviveScore, hg, hc, if_neg hs]

/-- Wrapper of `collectEvidence_aux` at the empty accumulator. -/
theorem collectEvidence_scores (st : MatcherState) (qe : List ℚ)
    (ids : List String) (evs : List Evidence)
    (h : collectEvidence st qe ids = some evs) :
    evs.map (·.score) = ids.filterMap (surviveScore st qe) := by
  unfold collectEvidence at h
  simpa using collectEvidence_aux st qe ids [] evs h

/-- C2 (amended): the evidence list follows the candidate order — its
scores are exactly the surviving candidates' recomputed scores in that
order — so it is sorted by score descending precisely when those scores
arrive in descending order; `synthesize` sorts only a private copy. -/
theorem predict_evidence_order_c2 (st : MatcherState) (qe : List ℚ)
    (ids : List String) (evs : List Evidence)
    (h : collectEvidence st qe ids = some evs)
    (hdesc : (ids.filterMap (surviveScore st qe)).Pairwise
      (fun a b => b ≤ a)) :
    evs.map (·.score) = ids.filterMap (surviveScore st qe) ∧
    sortedBy (fun a b : Evidence => decide (b.score ≤ a.score)) evs := by
  have hmap := collectEvidence_scores st qe ids evs h
  refine ⟨hmap, ?_⟩
  rw [← hmap] at hdesc
  have hp2 : evs.Pairwise (fun e1 e2 => e2.score ≤ e1.score) :=
    List.pairwise_map.mp hdesc
  exact hp2.imp fun hab => decide_eq_true hab

/-- C2 witness: a two-span matcher whose candidate scores arrive
descending, on which the amended theorem yields a sorted evidence list. -/
theorem predict_evidence_order_c2_witness :
    ∃ evs,
      collectEvidence
          ⟨⟨3, -2, 20, 1, 10⟩, none, none, none, none,
            [("s1", ⟨"s1", some "sun", none, none, none, none, none, none,
              none, none⟩),
             ("s2", ⟨"s2", some "red", none, none, none, none, none, none,
              none, none⟩)]⟩
          (embed "sun" 1) ["s1", "s2"] = some evs ∧
      (evs.map (·.score) =
        (["s1", "s2"].filterMap (surviveScore
          ⟨⟨3, -2, 20, 1, 10⟩, none, none, none, none,
            [("s1", ⟨"s1", some "sun", none, none, none, none, none, none,
              none, none⟩),
             ("s2", ⟨"s2", some "red", none, none, none, none, none, none,
              none, none⟩)]⟩ (embed "sun" 1))) ∧
       sortedBy (fun a b : Evidence => decide (b.score ≤ a.score)) evs) := by
  cases h : collectEvidence
      ⟨⟨3, -2, 20, 1, 10⟩, none, none, none, none,
        [("s1", ⟨"s1", some "sun", none, none, none, none, none, none,
          none, none⟩),
         ("s2", ⟨"s2", some "red", none, none, none, none, none, none,
          none, none⟩)]⟩
      (embed "sun" 1) ["s1", "s2"] with
  | none =>
    have hs : (collectEvidence
        ⟨⟨3, -2, 20, 1, 10⟩, none, none, none, none,
          [("s1", ⟨"s1", some "sun", none, none, none, none, none, none,
            none, none⟩),
           ("s2", ⟨"s2", some "red", none, none, none, none, none, none,
            none, none⟩)]⟩
        (embed "sun" 1) ["s1", "s2"]).isSome = true := by decide
    rw [h] at hs
    simp at hs
  | some evs =>
    exact ⟨evs, rfl, predict_evidence_order_c2 _ _ _ _ h (by decide)⟩

/-- C2 counterexample: a reachable matcher (two `addSpan` calls, no
indices, embedding dimension 1) for which `predict` returns through the
final low-confidence branch with the non-empty evidence list scored
`[-1, 1]` — not sorted descending, because the evidence keeps the
candidate order and only `synthesize` sorts a copy. -/
theorem predict_sorted_c2_counterexample :
    (((addSpan (matcherInit ⟨3, -2, 20, 1, 10⟩)
          ⟨"s1", some "sun", none, none, none, none, none, none, none,
            none⟩ 0).bind fun st1 =>
        (addSpan st1
          ⟨"s2", some "red", none, none, none, none, none, none, none,
            none⟩ 0).bind fun st2 =>
        predict st2 ⟨none, none, none⟩ "red" none).map fun p =>
          (p.method, p.trajectories_used,
            (p.evidence.getD []).map (·.score))) =
      some (.low_confidence, 2, [-1, 1]) ∧
    ¬ sortedBy (fun a b : ℚ => decide (b ≤ a)) [(-1 : ℚ), 1] :=
  ⟨by decide, by decide⟩

/-- C3: whenever the plan's `topK` is below the configured `minTopK`,
`predict` returns the fixed low-confidence prediction with confidence 10
and zero trajectories, whatever the state, context and action. -/
theorem predict_low_topk_c3 (st : MatcherState) (context : Ctx)
    (action : String) (plan : SearchPlan)
    (h : plan.topK < st.config.minTopK) :
    predict st context action (some plan) =
      some { output := "Insufficient search parameters. Please request more results.",
             confidence := 10, trajectories_used := 0,
             method := .low_confidence, evidence := none,
             plan := some plan } := by
  unfold predict
  dsimp only [Option.getD_some]
  rw [if_pos h]

/-- C3 witness: a default-configured empty matcher with `topK = 1 < 3`. -/
theorem predict_low_topk_c3_witness :
    (1 : ℕ) < (matcherInit defaultMatcherConfig).config.minTopK ∧
    predict (matcherInit defaultMatcherConfig) ⟨none, none, none⟩ "deploy"
        (some ⟨1, 60, none, none⟩) =
      some { output := "Insufficient search parameters. Please request more results.",
             confidence := 10, trajectories_used := 0,
             method := .low_confidence, evidence := none,
             plan := some ⟨1, 60, none, none⟩ } :=
  ⟨by decide,
   predict_low_topk_c3 (matcherInit defaultMatcherConfig) ⟨none, none, none⟩
     "deploy" ⟨1, 60, none, none⟩ (by decide)⟩

end ATexts
